import Mathlib

/-!
Shallow embedding of the `graph-layout` library (space-filling-curve tanglers in
`src/layout.rs` and the delta compressor in `src/compression.rs`), together with
proofs about the claims of its specification.

Machine integers are embedded as `Nat` with explicit `% 2^w` at the points where
the Rust code relies on wrapping (release-mode) semantics; Rust `x >> k` becomes
`x / 2^k`, `x & 1` becomes `x % 2`, `x as u8` becomes `x % 256`, and so on.
Vectors built by indexed writes become functions built by `updFn` folds.
-/

namespace GraphLayout

/-- Bit `j` of a natural number, as `0` or `1` (models `(x >> j) & 1`). -/
def bitOf (x j : Nat) : Nat := x / 2 ^ j % 2

/-- Wrapping subtraction of 32-bit words, release-mode `u32` subtraction. -/
def wsub32 (a b : Nat) : Nat := (a + (2 ^ 32 - b % 2 ^ 32)) % 2 ^ 32

/-- Wrapping subtraction of 64-bit words, release-mode `u64` subtraction. -/
def wsub64 (a b : Nat) : Nat := (a + (2 ^ 64 - b % 2 ^ 64)) % 2 ^ 64

/-- Vector write `g[k] := v`, as a function update. -/
def updFn (g : Nat → Nat × Nat) (k : Nat) (v : Nat × Nat) : Nat → Nat × Nat :=
  fun z => if z = k then v else g z

/-- The detangle-table build loop shared by both tanglers: for each byte-pair
index `i < n` (row-major, `i = x_byte * 256 + y_byte`), write the byte pair
into slot `key i` of a table initialised with `(0, 0)`. -/
def buildTab (key : Nat → Nat) : Nat → (Nat → Nat × Nat)
  | 0 => fun _ => (0, 0)
  | i + 1 => updFn (buildTab key i) (key i) (i / 256 % 256, i % 256)

namespace ZOrder

/-- Partial interleave sums of the `ZOrder::new` inner loop: after `n` rounds,
`z` holds bit `b` of `x` at position `2*b` and bit `b` of `y` at position
`2*b + 1`, for all `b < n`. -/
def zsum : Nat → Nat → Nat → Nat
  | 0, _, _ => 0
  | b + 1, x, y => zsum b x y + (x / 2 ^ b % 2) * 2 ^ (2 * b) + (y / 2 ^ b % 2) * 2 ^ (2 * b + 1)

/-- The `entangle` table of `ZOrder::new`: slot `x_byte * 256 + y_byte` holds the
bit interleave of the two bytes (stored as `u16`). -/
def entangleTable (i : Nat) : Nat := zsum 8 (i / 256 % 256) (i % 256) % 65536

/-- The `detangle` table of `ZOrder::new`, built by indexed writes
`detangle[z] = (x_byte, y_byte)`. -/
def detangleTable : Nat → Nat × Nat := buildTab entangleTable 65536

/-- `<ZOrder as Tangle>::entangle`: four byte-pair table lookups, shifted into
disjoint 16-bit chunks of the result. -/
def entangle (x y : Nat) : Nat :=
    entangleTable ((x % 256) * 256 + (y % 256))
  + entangleTable ((x / 2 ^ 8 % 256) * 256 + (y / 2 ^ 8 % 256)) * 2 ^ 16
  + entangleTable ((x / 2 ^ 16 % 256) * 256 + (y / 2 ^ 16 % 256)) * 2 ^ 32
  + entangleTable ((x / 2 ^ 24 % 256) * 256 + (y / 2 ^ 24 % 256)) * 2 ^ 48

/-- `<ZOrder as Tangle>::detangle`: four 16-bit chunk lookups, reassembling each
coordinate from its four bytes. -/
def detangle (tangle : Nat) : Nat × Nat :=
  ((detangleTable (tangle % 65536)).1
      + (detangleTable (tangle / 2 ^ 16 % 65536)).1 * 2 ^ 8
      + (detangleTable (tangle / 2 ^ 32 % 65536)).1 * 2 ^ 16
      + (detangleTable (tangle / 2 ^ 48 % 65536)).1 * 2 ^ 24,
   (detangleTable (tangle % 65536)).2
      + (detangleTable (tangle / 2 ^ 16 % 65536)).2 * 2 ^ 8
      + (detangleTable (tangle / 2 ^ 32 % 65536)).2 * 2 ^ 16
      + (detangleTable (tangle / 2 ^ 48 % 65536)).2 * 2 ^ 24)

/-- Parametric bit interleave (proof device): `il n x y` interleaves the low `n`
bits of `x` (even positions) and `y` (odd positions). -/
def il : Nat → Nat → Nat → Nat
  | 0, _, _ => 0
  | n + 1, x, y => il n (x / 2) (y / 2) * 4 + x % 2 + 2 * (y % 2)

/-- Parametric bit de-interleave (proof device), inverse of `il`. -/
def de : Nat → Nat → Nat × Nat
  | 0, _ => (0, 0)
  | n + 1, z => ((de n (z / 4)).1 * 2 + z % 2, (de n (z / 4)).2 * 2 + z / 2 % 2)

end ZOrder

namespace Hilbert

/-- `Hilbert::bit_rotate`: rotation of the pair based on the residual bits `rx`
and `ry`. The `u32` subtractions wrap (release semantics), hence `wsub32`. -/
def bit_rotate (logn : Nat) (pair : Nat × Nat) (rx ry : Nat) : Nat × Nat :=
  if ry = 0 then
    if rx ≠ 0 then (wsub32 (2 ^ logn - 1) pair.2, wsub32 (2 ^ logn - 1) pair.1)
    else (pair.2, pair.1)
  else pair

/-- Loop of `Hilbert::bit_entangle`, processing bit positions `k - 1` down
to `0` (the Rust loop runs `log_s` from `31` down to `0`). -/
def entLoop : Nat → Nat × Nat → Nat
  | 0, _ => 0
  | k + 1, pair =>
    ((3 * bitOf pair.1 k) ^^^ bitOf pair.2 k) * 2 ^ (2 * k)
      + entLoop k (bit_rotate k pair (bitOf pair.1 k) (bitOf pair.2 k))

/-- `Hilbert::bit_entangle`: the bit-at-a-time reference entangle. -/
def bit_entangle (pair : Nat × Nat) : Nat := entLoop 32 pair

/-- Loop of `Hilbert::bit_detangle`, processing steps `0` up to `k - 1`; the
recursive call performs the earlier (lower) steps first. -/
def detLoop : Nat → Nat → Nat × Nat
  | 0, _ => (0, 0)
  | k + 1, tangle =>
    let shifted := tangle / 2 ^ (2 * k) % 4
    let rx := shifted / 2 % 2
    let ry := (shifted ^^^ rx) % 2
    let r := bit_rotate k (detLoop k tangle) rx ry
    (r.1 + rx * 2 ^ k, r.2 + ry * 2 ^ k)

/-- `Hilbert::bit_detangle`: the bit-at-a-time reference detangle. -/
def bit_detangle (tangle : Nat) : Nat × Nat := detLoop 32 tangle

/-- The `entangle` table of `Hilbert::new`: for byte pair `(x, y)` (index
`x * 256 + y`), the top 16 bits of the reference entangle of the probe
`(x << 24, (y << 24) + (1 << 23))`, stored as `u16`. -/
def entangleTable (i : Nat) : Nat :=
  bit_entangle ((i / 256 % 256) * 2 ^ 24, (i % 256) * 2 ^ 24 + 2 ^ 23) / 2 ^ 48 % 65536

/-- The `rotation` table of `Hilbert::new`: bits 44..47 of the probe entangle. -/
def rotationTable (i : Nat) : Nat :=
  bit_entangle ((i / 256 % 256) * 2 ^ 24, (i % 256) * 2 ^ 24 + 2 ^ 23) / 2 ^ 44 % 16

/-- The `detangle` table of `Hilbert::new`, built by indexed writes
`detangle[entangled >> 48] = (x_byte, y_byte)`. -/
def detangleTable : Nat → Nat × Nat := buildTab entangleTable 65536

/-- Loop of `<Hilbert as Tangle>::entangle`: `m` counts the byte groups still
to process; the group processed by `m + 1` reads the bytes at bit offset
`8 * m` (the Rust loop index is `i = 4 - (m + 1)`, shift `24 - 8 * i`). The
loop reads the tangler's two tables, passed as `tE` and `tR`. -/
def entangleAux (tE tR : Nat → Nat) : Nat → Nat → Nat → Nat → Nat
  | 0, _, _, result => result
  | m + 1, x, y, result =>
    let xb := x / 2 ^ (8 * m) % 256
    let yb := y / 2 ^ (8 * m) % 256
    let result1 := result * 2 ^ 16 + tE (xb * 256 + yb)
    let rot := tR (xb * 256 + yb)
    let x1 := if 0 < rot &&& 2 then y else x
    let y1 := if 0 < rot &&& 2 then x else y
    let x2 := if rot = 12 ∨ rot = 6 then 4294967295 - x1 else x1
    let y2 := if rot = 12 ∨ rot = 6 then 4294967295 - y1 else y1
    entangleAux tE tR m x2 y2 result1

/-- `<Hilbert as Tangle>::entangle`: the byte-at-a-time fast path, reading the
tables built by `Hilbert::new`. -/
def entangle (x y : Nat) : Nat := entangleAux entangleTable rotationTable 4 x y 0

/-- Loop of `<Hilbert as Tangle>::detangle`: the recursive call performs the
lower chunks (`log_s < m`) first, then step `m` is applied on top. The loop
reads the tangler's two tables, passed as `tD` and `tR`. -/
def detangleAux (tD : Nat → Nat × Nat) (tR : Nat → Nat) : Nat → Nat → Nat × Nat
  | 0, _ => (0, 0)
  | m + 1, tangle =>
    let r := detangleAux tD tR m tangle
    let shifted := tangle / 2 ^ (16 * m) % 65536
    let xb := (tD shifted).1
    let yb := (tD shifted).2
    let rot := tR (xb * 256 + yb)
    let xf := if rot = 12 ∨ rot = 6 then 2 ^ (8 * m) - r.1 - 1 else r.1
    let yf := if rot = 12 ∨ rot = 6 then 2 ^ (8 * m) - r.2 - 1 else r.2
    let xr := if 0 < rot &&& 2 then yf else xf
    let yr := if 0 < rot &&& 2 then xf else yf
    (xr + xb * 2 ^ (8 * m), yr + yb * 2 ^ (8 * m))

/-- `<Hilbert as Tangle>::detangle`: the byte-at-a-time fast path, reading the
tables built by `Hilbert::new`. -/
def detangle (tangle : Nat) : Nat × Nat := detangleAux detangleTable rotationTable 4 tangle

/-- One step of the swap/flip state-machine reformulation of `bit_entangle`
(proof device): the state `(swap, flip)` is the net Klein-group transform that
the rotations so far apply to the remaining low bits. -/
def hstep (st : Bool × Bool) (a0 b0 : Nat) : Nat × (Bool × Bool) :=
  let a1 := if st.1 then b0 else a0
  let b1 := if st.1 then a0 else b0
  let rx := if st.2 then 1 - a1 else a1
  let ry := if st.2 then 1 - b1 else b1
  ((3 * rx) ^^^ ry,
    if ry = 0 then (if rx = 0 then (!st.1, st.2) else (!st.1, !st.2)) else st)

/-- Swap/flip state machine run over bit positions `k - 1` down to `0`
(proof device): returns the emitted quadrant codes and the final state. -/
def absEnt : Nat → Nat → Nat → (Bool × Bool) → Nat × (Bool × Bool)
  | 0, _, _, st => (0, st)
  | k + 1, x, y, st =>
    ((hstep st (bitOf x k) (bitOf y k)).1 * 2 ^ (2 * k)
        + (absEnt k x y (hstep st (bitOf x k) (bitOf y k)).2).1,
     (absEnt k x y (hstep st (bitOf x k) (bitOf y k)).2).2)

/-- Klein-group coordinate transform at width `k` (proof device): optional
swap, then optional bitwise complement within `k` bits. -/
def app (k : Nat) (st : Bool × Bool) (x y : Nat) : Nat × Nat :=
  let u := if st.1 then y % 2 ^ k else x % 2 ^ k
  let v := if st.1 then x % 2 ^ k else y % 2 ^ k
  if st.2 then (2 ^ k - 1 - u, 2 ^ k - 1 - v) else (u, v)

/-- Componentwise exclusive or of two swap/flip states (proof device). -/
def pxor (a b : Bool × Bool) : Bool × Bool := (xor a.1 b.1, xor a.2 b.2)

/-- The transform `app` restricted to a single bit position (proof device). -/
def bapp (q : Bool × Bool) (a b : Nat) : Nat × Nat :=
  let u := if q.1 then b else a
  let v := if q.1 then a else b
  if q.2 then (1 - u, 1 - v) else (u, v)

/-- The rotation code recorded by the table build, as a function of the state
after the probe's top byte pair: the probe's next two quadrant codes, read off
bits `44..47` (proof device). -/
def rotCode (st : Bool × Bool) : Nat := (absEnt 2 0 2 st).1

end Hilbert

/-- The mutable cache state of `BytewiseCached` (the owned `Hilbert` tangler is
embedded as the global table functions above). -/
structure BytewiseCached where
  prev_hi : Nat
  prev_out : Nat × Nat
  prev_rot : Bool × Bool
deriving DecidableEq

namespace BytewiseCached

/-- The cache-rebuild arm of `BytewiseCached::detangle`: decode the probe
`(hi << 16) + 255` with the stateless Hilbert detangle and classify its low
bytes into a swap/flip descriptor; `none` models the panic arm. The base
offsets mask off the low byte (`x & 0xFFFFFF00`). -/
def rebuild (hi : Nat) : Option ((Bool × Bool) × (Nat × Nat)) :=
  let x := (Hilbert.detangle (hi * 65536 + 255)).1
  let y := (Hilbert.detangle (hi * 65536 + 255)).2
  let rot : Option (Bool × Bool) :=
    if x % 256 = 15 ∧ y % 256 = 0 then some (false, false)
    else if x % 256 = 0 ∧ y % 256 = 15 then some (true, false)
    else if x % 256 = 240 ∧ y % 256 = 255 then some (false, true)
    else if x % 256 = 255 ∧ y % 256 = 240 then some (true, true)
    else none
  rot.map (fun r => (r, (x / 256 * 256, y / 256 * 256)))

/-- `BytewiseCached::detangle`: look up the low 16 bits, rebuild the cache when
the high 48 bits changed, then apply the cached flip/swap and base offsets.
Returns the decoded pair together with the updated cache state; `none` models
the panic arm of the rebuild. -/
def detangle (c : BytewiseCached) (tangle : Nat) : Option ((Nat × Nat) × BytewiseCached) :=
  let xb := (Hilbert.detangleTable (tangle % 65536)).1
  let yb := (Hilbert.detangleTable (tangle % 65536)).2
  let upd : Option BytewiseCached :=
    if c.prev_hi ≠ tangle / 65536 then
      match rebuild (tangle / 65536) with
      | none => none
      | some rs => some ⟨tangle / 65536, rs.2, rs.1⟩
    else some c
  upd.map (fun s =>
    let xf := if s.prev_rot.2 then 255 - xb else xb
    let yf := if s.prev_rot.2 then 255 - yb else yb
    let xr := if s.prev_rot.1 then yf else xf
    let yr := if s.prev_rot.1 then xf else yf
    ((s.prev_out.1 + xr, s.prev_out.2 + yr), s))

/-- `BytewiseCached::new`: start from an impossible `prev_hi` and decode `0`
once to populate the cache. -/
def new : Option BytewiseCached :=
  (detangle ⟨18446744073709551615, (0, 0), (false, false)⟩ 0).map (fun r => r.2)

/-- Feed a sequence of tangles through a cache, collecting the outputs;
`none` if any call hits the panic arm. -/
def run (c : BytewiseCached) : List Nat → Option (List (Nat × Nat))
  | [] => some []
  | t :: ts =>
    match detangle c t with
    | none => none
    | some pr => (run pr.2 ts).map (fun l => pr.1 :: l)

/-- The Klein transform that the top 48 bits of a tangle leave for its low
byte pair (proof device): the machine state after the top 24 coordinate bits,
recovered from the high 48 tangle bits. -/
def hiState (hi : Nat) : Bool × Bool :=
  (Hilbert.absEnt 24 (Hilbert.detLoop 24 hi).1 (Hilbert.detLoop 24 hi).2 (false, false)).2

/-- The byte-aligned coordinate base that the top 48 bits of a tangle decode
to (proof device). -/
def hiBase (hi : Nat) : Nat × Nat :=
  ((Hilbert.detLoop 24 hi).1 * 256, (Hilbert.detLoop 24 hi).2 * 256)

end BytewiseCached

/-- The discriminator entries of the compressed form (`enum Others`). -/
inductive Others where
  | Unsigned16
  | Unsigned32
  | Unsigned64
deriving DecidableEq

/-- A compressed stream of `u64` values: five parallel growable arrays. -/
structure Compressed where
  bytes : List Nat
  other : List Others
  u16s : List Nat
  u32s : List Nat
  u64s : List Nat
deriving DecidableEq

/-- `Compressed::push`: encode one delta into the tag-byte stream and, when it
does not fit a nonzero byte, into exactly one overflow stream. -/
def Compressed.push (c : Compressed) (delta : Nat) : Compressed :=
  if 0 < delta ∧ delta < 256 then
    { c with bytes := c.bytes ++ [delta] }
  else
    if delta < 2 ^ 16 then
      { c with bytes := c.bytes ++ [0], other := c.other ++ [Others.Unsigned16],
               u16s := c.u16s ++ [delta % 2 ^ 16] }
    else if delta < 2 ^ 32 then
      { c with bytes := c.bytes ++ [0], other := c.other ++ [Others.Unsigned32],
               u32s := c.u32s ++ [delta % 2 ^ 32] }
    else
      { c with bytes := c.bytes ++ [0], other := c.other ++ [Others.Unsigned64],
               u64s := c.u64s ++ [delta] }

/-- The compressor state: the last pushed raw value and the growing output. -/
structure Compressor where
  current : Nat
  compressed : Compressed
deriving DecidableEq

/-- `Compressor::with_capacity`: a fresh compressor (the capacity only
pre-sizes an allocation and has no semantic effect). -/
def Compressor.with_capacity (_size : Nat) : Compressor :=
  { current := 0, compressed := ⟨[], [], [], [], []⟩ }

/-- `Compressor::new`. -/
def Compressor.new : Compressor := Compressor.with_capacity 0

/-- `Compressor::push`: encode `next - current` (wrapping `u64` subtraction)
and remember `next`. -/
def Compressor.push (c : Compressor) (next : Nat) : Compressor :=
  { current := next, compressed := c.compressed.push (wsub64 next c.current) }

/-- `Compressor::done`. -/
def Compressor.done (c : Compressor) : Compressed := c.compressed

/-- `Compressed::from`: drain a sequence into a fresh compressor (the iterator
size hint only pre-sizes an allocation). -/
def Compressed.fromList (l : List Nat) : Compressed :=
  (l.foldl Compressor.push (Compressor.with_capacity l.length)).done

/-- The decompressor state: reconstruction accumulator plus the unread suffix
of each of the five arrays. -/
structure Decompressor where
  current : Nat
  bytes : List Nat
  other : List Others
  u16s : List Nat
  u32s : List Nat
  u64s : List Nat
deriving DecidableEq

/-- `Compressed::decompress`. -/
def Compressed.decompress (c : Compressed) : Decompressor :=
  ⟨0, c.bytes, c.other, c.u16s, c.u32s, c.u64s⟩

/-- Result of one `Decompressor::next` call: the iterator is exhausted, or an
`unwrap` of a mismatched overflow stream fails (Rust panic), or a value is
yielded together with the advanced state. -/
inductive NextResult where
  | done
  | fail
  | yield (value : Nat) (rest : Decompressor)
deriving DecidableEq

/-- `Decompressor::next` (`u64` addition wraps in release builds). -/
def Decompressor.next (d : Decompressor) : NextResult :=
  match d.bytes with
  | [] => NextResult.done
  | byte :: bs =>
    if 0 < byte then
      NextResult.yield ((d.current + byte) % 2 ^ 64)
        { d with current := (d.current + byte) % 2 ^ 64, bytes := bs }
    else
      match d.other with
      | [] => NextResult.fail
      | Others.Unsigned16 :: os =>
        match d.u16s with
        | [] => NextResult.fail
        | v :: vs =>
          NextResult.yield ((d.current + v) % 2 ^ 64)
            { d with current := (d.current + v) % 2 ^ 64, bytes := bs, other := os, u16s := vs }
      | Others.Unsigned32 :: os =>
        match d.u32s with
        | [] => NextResult.fail
        | v :: vs =>
          NextResult.yield ((d.current + v) % 2 ^ 64)
            { d with current := (d.current + v) % 2 ^ 64, bytes := bs, other := os, u32s := vs }
      | Others.Unsigned64 :: os =>
        match d.u64s with
        | [] => NextResult.fail
        | v :: vs =>
          NextResult.yield ((d.current + v) % 2 ^ 64)
            { d with current := (d.current + v) % 2 ^ 64, bytes := bs, other := os, u64s := vs }

/-- `Decompressor::size_hint`: both bounds equal the remaining tag-byte count. -/
def Decompressor.size_hint (d : Decompressor) : Nat × Option Nat :=
  (d.bytes.length, some d.bytes.length)

/-- Drain a decompressor with explicit fuel (each yielded value consumes one
tag byte, so `d.bytes.length` fuel always suffices); `none` records a panic. -/
def collectAux : Nat → Decompressor → Option (List Nat)
  | 0, d =>
    match d.next with
    | NextResult.done => some []
    | _ => none
  | n + 1, d =>
    match d.next with
    | NextResult.done => some []
    | NextResult.fail => none
    | NextResult.yield v rest => (collectAux n rest).map (fun l => v :: l)

/-- Collect every value the decompressor will yield; `none` records a panic. -/
def Decompressor.collect (d : Decompressor) : Option (List Nat) :=
  collectAux d.bytes.length d

/-- Advance a decompressor by `k` successful `next` calls. -/
def stepN : Nat → Decompressor → Option Decompressor
  | 0, d => some d
  | k + 1, d =>
    match d.next with
    | NextResult.yield _ rest => stepN k rest
    | _ => none

/-- Componentwise concatenation of compressed streams (proof device). -/
def capp (a b : Compressed) : Compressed :=
  ⟨a.bytes ++ b.bytes, a.other ++ b.other, a.u16s ++ b.u16s, a.u32s ++ b.u32s, a.u64s ++ b.u64s⟩

/-- The stream increments appended by a single `Compressed::push` (proof
device). -/
def encOne (delta : Nat) : Compressed := Compressed.push ⟨[], [], [], [], []⟩ delta

/-- The streams produced by compressing the list `l` starting from last raw
value `cur` (proof device). -/
def encAll (cur : Nat) : List Nat → Compressed
  | [] => ⟨[], [], [], [], []⟩
  | v :: vs => capp (encOne (wsub64 v cur)) (encAll v vs)

/-- Number of zero-valued entries of a tag-byte stream. -/
def zeroCount : List Nat → Nat
  | [] => 0
  | b :: bs => (if b = 0 then 1 else 0) + zeroCount bs

/-- Number of discriminator entries equal to `o`. -/
def tierCount (o : Others) : List Others → Nat
  | [] => 0
  | x :: xs => (if x = o then 1 else 0) + tierCount o xs

/-- Mutual-consistency invariant of the five parallel arrays: every zero tag
byte has exactly one discriminator entry, and each discriminator tier has
exactly one entry in its overflow stream. -/
def streamInv (D : Compressed) : Prop :=
  zeroCount D.bytes = D.other.length
  ∧ tierCount Others.Unsigned16 D.other = D.u16s.length
  ∧ tierCount Others.Unsigned32 D.other = D.u32s.length
  ∧ tierCount Others.Unsigned64 D.other = D.u64s.length

/-- The same invariant on the unread suffixes held by a decompressor. -/
def decompInv (d : Decompressor) : Prop :=
  zeroCount d.bytes = d.other.length
  ∧ tierCount Others.Unsigned16 d.other = d.u16s.length
  ∧ tierCount Others.Unsigned32 d.other = d.u32s.length
  ∧ tierCount Others.Unsigned64 d.other = d.u64s.length

/-! ### Basic arithmetic lemmas -/

theorem pow2_pos (k : Nat) : 0 < 2 ^ k := Nat.two_pow_pos k

/-- Decomposing `P*Q - 1 - v` into `P`-digit and remainder: subtracting from the
all-ones value complements each digit with no borrows. -/
theorem chunkdec (P Q v : Nat) (hP : 0 < P) (hv : v < P * Q) :
    (P * Q - 1 - v) % P = P - 1 - v % P ∧ (P * Q - 1 - v) / P = Q - 1 - v / P := by
  have hq : v / P < Q := Nat.div_lt_of_lt_mul hv
  have hr : v % P < P := Nat.mod_lt _ hP
  have hd : P * (v / P) + v % P = v := Nat.div_add_mod v P
  have hQ : 0 < Q := by
    rcases Nat.eq_zero_or_pos Q with h | h
    · subst h; simp at hv
    · exact h
  have key : P * Q - 1 - v = P * (Q - 1 - v / P) + (P - 1 - v % P) := by
    have h1 : P * (Q - 1 - v / P) = P * Q - P - P * (v / P) := by
      rw [Nat.mul_sub, Nat.mul_sub, Nat.mul_one]
    have h2 : P * (v / P) + P ≤ P * Q := by
      have : v / P + 1 ≤ Q := hq
      calc P * (v / P) + P = P * (v / P + 1) := by ring
        _ ≤ P * Q := Nat.mul_le_mul_left P this
    omega
  constructor
  · rw [key, Nat.mul_add_mod, Nat.mod_eq_of_lt (by omega)]
  · rw [key, Nat.mul_add_div hP,
      Nat.div_eq_of_lt (show P - 1 - v % P < P by omega), Nat.add_zero]

/-- Extracting a `w`-bit field below position `m` ignores bits at `m` and above. -/
theorem chunk_mod (j w m t : Nat) (h : j + w ≤ m) :
    t % 2 ^ m / 2 ^ j % 2 ^ w = t / 2 ^ j % 2 ^ w := by
  have hm : (2 : Nat) ^ m = 2 ^ j * 2 ^ (m - j) := by
    rw [← Nat.pow_add]
    congr 1
    omega
  rw [hm, Nat.mod_mul_right_div_self]
  exact Nat.mod_mod_of_dvd _ (Nat.pow_dvd_pow 2 (by omega))

theorem bitOf_lt_two (x j : Nat) : bitOf x j < 2 := Nat.mod_lt _ (by norm_num)

theorem bitOf_le_one (x j : Nat) : bitOf x j ≤ 1 := Nat.lt_succ_iff.mp (bitOf_lt_two x j)

theorem bitOf_mod (x j m : Nat) (h : j < m) : bitOf (x % 2 ^ m) j = bitOf x j := by
  have := chunk_mod j 1 m x (by omega)
  simpa [bitOf] using this

theorem bitOf_div (x k j : Nat) : bitOf (x / 2 ^ k) j = bitOf x (k + j) := by
  rw [bitOf, bitOf, Nat.div_div_eq_div_mul, ← Nat.pow_add]

/-- A bit of the all-ones complement is the complemented bit. -/
theorem bitOf_comp (m j y : Nat) (hj : j < m) (hy : y < 2 ^ m) :
    bitOf (2 ^ m - 1 - y) j = 1 - bitOf y j := by
  have hm : (2 : Nat) ^ m = 2 ^ j * 2 ^ (m - j) := by
    rw [← Nat.pow_add]; congr 1; omega
  have h1 := (chunkdec (2 ^ j) (2 ^ (m - j)) y (pow2_pos j) (by rw [← hm]; exact hy)).2
  have hyd : y / 2 ^ j < 2 ^ (m - j) := Nat.div_lt_of_lt_mul (by rw [← hm]; exact hy)
  have hmj : (2 : Nat) ^ (m - j) = 2 * 2 ^ (m - j - 1) := by
    rw [← Nat.pow_succ']
    congr 1
    omega
  have h2 := (chunkdec 2 (2 ^ (m - j - 1)) (y / 2 ^ j) (by norm_num) (by rw [← hmj]; exact hyd)).1
  rw [bitOf, bitOf, hm, h1, hmj, h2]

/-- Splitting a value at bit `k` inside a modulus at bit `k + w`. -/
theorem mod_split (k w n : Nat) :
    n % 2 ^ (k + w) = 2 ^ k * (n / 2 ^ k % 2 ^ w) + n % 2 ^ k := by
  rw [Nat.pow_add, Nat.mod_mul, Nat.add_comm]

/-- Recombining the low `k` bits with bit `k`. -/
theorem mod_succ_bit (k x : Nat) :
    x % 2 ^ (k + 1) = x % 2 ^ k + bitOf x k * 2 ^ k := by
  have h := mod_split k 1 x
  rw [pow_one] at h
  rw [bitOf, h]
  ring

theorem wsub32_mod (k b : Nat) (hk : k ≤ 31) :
    wsub32 (2 ^ k - 1) b % 2 ^ k = 2 ^ k - 1 - b % 2 ^ k := by
  have h32 : (2 : Nat) ^ 32 = 2 ^ k * 2 ^ (32 - k) := by
    rw [← Nat.pow_add]; congr 1; omega
  have hY : b % 2 ^ 32 < 2 ^ k * 2 ^ (32 - k) := by
    rw [← h32]; exact Nat.mod_lt _ (pow2_pos 32)
  have hdvd : (2 : Nat) ^ k ∣ 2 ^ 32 := Nat.pow_dvd_pow 2 (by omega)
  rw [wsub32, Nat.mod_mod_of_dvd _ hdvd]
  have hsplit : 2 ^ k - 1 + (2 ^ 32 - b % 2 ^ 32)
      = 2 ^ k + (2 ^ k * 2 ^ (32 - k) - 1 - b % 2 ^ 32) := by
    have hpos := pow2_pos k
    omega
  rw [hsplit, Nat.add_mod_left,
    (chunkdec (2 ^ k) (2 ^ (32 - k)) (b % 2 ^ 32) (pow2_pos k) hY).1]
  congr 1
  exact Nat.mod_mod_of_dvd _ hdvd

theorem wsub32_exact (a b : Nat) (ha : a < 2 ^ 32) (h : b ≤ a) : wsub32 a b = a - b := by
  have hb : b % 2 ^ 32 = b := Nat.mod_eq_of_lt (by omega)
  rw [wsub32, hb]
  have : a + (2 ^ 32 - b) = 2 ^ 32 + (a - b) := by omega
  rw [this, Nat.add_mod_left, Nat.mod_eq_of_lt (by omega)]

theorem wsub32_lt (a b : Nat) : wsub32 a b < 2 ^ 32 := Nat.mod_lt _ (pow2_pos 32)

/-- Decoding re-adds a wrapped `u64` delta exactly. -/
theorem wsub64_add (cur v : Nat) (hc : cur < 2 ^ 64) (hv : v < 2 ^ 64) :
    (cur + wsub64 v cur) % 2 ^ 64 = v := by
  have hb : cur % 2 ^ 64 = cur := Nat.mod_eq_of_lt hc
  rw [wsub64, hb, Nat.add_mod, Nat.mod_mod_of_dvd _ dvd_rfl, ← Nat.add_mod]
  have : cur + (v + (2 ^ 64 - cur)) = 2 ^ 64 + v := by omega
  rw [this, Nat.add_mod_left, Nat.mod_eq_of_lt hv]

theorem wsub64_lt (a b : Nat) : wsub64 a b < 2 ^ 64 := Nat.mod_lt _ (pow2_pos 64)

/-! ### Quadrant-code encode/decode -/

theorem code_lt (rx ry : Nat) (h1 : rx < 2) (h2 : ry < 2) : (3 * rx) ^^^ ry < 4 := by
  interval_cases rx <;> interval_cases ry <;> decide

theorem decode_rx (rx ry : Nat) (h1 : rx < 2) (h2 : ry < 2) :
    ((3 * rx) ^^^ ry) / 2 % 2 = rx := by
  interval_cases rx <;> interval_cases ry <;> decide

theorem decode_ry (rx ry : Nat) (h1 : rx < 2) (h2 : ry < 2) :
    (((3 * rx) ^^^ ry) ^^^ (((3 * rx) ^^^ ry) / 2 % 2)) % 2 = ry := by
  interval_cases rx <;> interval_cases ry <;> decide

theorem encode_code (c : Nat) (h : c < 4) :
    (3 * (c / 2 % 2)) ^^^ ((c ^^^ (c / 2 % 2)) % 2) = c := by
  interval_cases c <;> decide

/-! ### Compression: stream algebra -/

theorem zeroCount_append (a b : List Nat) :
    zeroCount (a ++ b) = zeroCount a + zeroCount b := by
  induction a with
  | nil => simp [zeroCount]
  | cons x xs ih => simp [zeroCount, ih, Nat.add_assoc]

theorem tierCount_append (o : Others) (a b : List Others) :
    tierCount o (a ++ b) = tierCount o a + tierCount o b := by
  induction a with
  | nil => simp [tierCount]
  | cons x xs ih => simp [tierCount, ih, Nat.add_assoc]

theorem tierCount_total (O : List Others) :
    tierCount Others.Unsigned16 O + tierCount Others.Unsigned32 O
      + tierCount Others.Unsigned64 O = O.length := by
  induction O with
  | nil => simp [tierCount]
  | cons x xs ih => cases x <;> simp [tierCount] <;> omega

theorem capp_empty_left (a : Compressed) : capp ⟨[], [], [], [], []⟩ a = a := by
  cases a
  simp [capp]

theorem capp_assoc (a b c : Compressed) : capp (capp a b) c = capp a (capp b c) := by
  cases a; cases b; cases c
  simp [capp]

theorem push_eq_capp (c : Compressed) (d : Nat) :
    Compressed.push c d = capp c (encOne d) := by
  rcases c with ⟨B, O, S16, S32, S64⟩
  by_cases h1 : 0 < d ∧ d < 256
  · simp [Compressed.push, encOne, capp, h1]
  · by_cases h2 : d < 65536
    · simp [Compressed.push, encOne, capp, h1, h2]
    · by_cases h3 : d < 4294967296
      · simp [Compressed.push, encOne, capp, h1, h2, h3]
      · simp [Compressed.push, encOne, capp, h1, h2, h3]

theorem encOne_bytes_length (d : Nat) : (encOne d).bytes.length = 1 := by
  by_cases h1 : 0 < d ∧ d < 256
  · simp [encOne, Compressed.push, h1]
  · by_cases h2 : d < 65536
    · simp [encOne, Compressed.push, h1, h2]
    · by_cases h3 : d < 4294967296
      · simp [encOne, Compressed.push, h1, h2, h3]
      · simp [encOne, Compressed.push, h1, h2, h3]

theorem foldl_push_done (l : List Nat) :
    ∀ (cur : Nat) (D : Compressed),
      (l.foldl Compressor.push ⟨cur, D⟩).done = capp D (encAll cur l) := by
  induction l with
  | nil =>
    intro cur D
    cases D
    simp [Compressor.done, encAll, capp]
  | cons v vs ih =>
    intro cur D
    have hstep : Compressor.push ⟨cur, D⟩ v = ⟨v, D.push (wsub64 v cur)⟩ := rfl
    calc ((v :: vs).foldl Compressor.push ⟨cur, D⟩).done
        = (vs.foldl Compressor.push ⟨v, D.push (wsub64 v cur)⟩).done := by
          rw [List.foldl_cons, hstep]
      _ = capp (D.push (wsub64 v cur)) (encAll v vs) := ih v _
      _ = capp D (capp (encOne (wsub64 v cur)) (encAll v vs)) := by
          rw [push_eq_capp, capp_assoc]
      _ = capp D (encAll cur (v :: vs)) := rfl

theorem fromList_eq (l : List Nat) : Compressed.fromList l = encAll 0 l := by
  have h0 : Compressor.with_capacity l.length = ⟨0, ⟨[], [], [], [], []⟩⟩ := rfl
  rw [Compressed.fromList, h0, foldl_push_done, capp_empty_left]

/-! ### Compression: decoding -/

theorem next_encOne (cur d : Nat) (B : List Nat) (O : List Others)
    (S16 S32 S64 : List Nat) :
    Decompressor.next ⟨cur, (encOne d).bytes ++ B, (encOne d).other ++ O,
        (encOne d).u16s ++ S16, (encOne d).u32s ++ S32, (encOne d).u64s ++ S64⟩
      = NextResult.yield ((cur + d) % 2 ^ 64)
          ⟨(cur + d) % 2 ^ 64, B, O, S16, S32, S64⟩ := by
  by_cases h1 : 0 < d ∧ d < 256
  · have he : encOne d = ⟨[d], [], [], [], []⟩ := by simp [encOne, Compressed.push, h1]
    rw [he]
    simp [Decompressor.next, h1.1]
  · by_cases h2 : d < 65536
    · have he : encOne d = ⟨[0], [Others.Unsigned16], [d % 2 ^ 16], [], []⟩ := by
        simp [encOne, Compressed.push, h1, h2]
      rw [he]
      simp [Decompressor.next, Nat.mod_eq_of_lt h2]
    · by_cases h3 : d < 4294967296
      · have he : encOne d = ⟨[0], [Others.Unsigned32], [], [d % 2 ^ 32], []⟩ := by
          simp [encOne, Compressed.push, h1, h2, h3]
        rw [he]
        simp [Decompressor.next, Nat.mod_eq_of_lt h3]
      · have he : encOne d = ⟨[0], [Others.Unsigned64], [], [], [d]⟩ := by
          simp [encOne, Compressed.push, h1, h2, h3]
        rw [he]
        simp [Decompressor.next]

theorem collect_encAll (l : List Nat) :
    ∀ (cur : Nat), cur < 2 ^ 64 → (∀ v ∈ l, v < 2 ^ 64) →
      collectAux (encAll cur l).bytes.length
        ⟨cur, (encAll cur l).bytes, (encAll cur l).other, (encAll cur l).u16s,
          (encAll cur l).u32s, (encAll cur l).u64s⟩ = some l := by
  induction l with
  | nil =>
    intro cur _ _
    simp [encAll, collectAux, Decompressor.next]
  | cons v vs ih =>
    intro cur hcur hmem
    have hval : (cur + wsub64 v cur) % 2 ^ 64 = v :=
      wsub64_add cur v hcur (hmem v (List.mem_cons_self v vs))
    have hlen : (encAll cur (v :: vs)).bytes.length
        = (encAll v vs).bytes.length + 1 := by
      show ((encOne (wsub64 v cur)).bytes ++ (encAll v vs).bytes).length = _
      rw [List.length_append, encOne_bytes_length]
      omega
    rw [hlen]
    have hstate : (⟨cur, (encAll cur (v :: vs)).bytes, (encAll cur (v :: vs)).other,
          (encAll cur (v :: vs)).u16s, (encAll cur (v :: vs)).u32s,
          (encAll cur (v :: vs)).u64s⟩ : Decompressor)
        = ⟨cur, (encOne (wsub64 v cur)).bytes ++ (encAll v vs).bytes,
            (encOne (wsub64 v cur)).other ++ (encAll v vs).other,
            (encOne (wsub64 v cur)).u16s ++ (encAll v vs).u16s,
            (encOne (wsub64 v cur)).u32s ++ (encAll v vs).u32s,
            (encOne (wsub64 v cur)).u64s ++ (encAll v vs).u64s⟩ := rfl
    rw [collectAux, hstate, next_encOne cur (wsub64 v cur) _ _ _ _, hval]
    show Option.map (fun l => v :: l)
        (collectAux (encAll v vs).bytes.length
          ⟨v, (encAll v vs).bytes, (encAll v vs).other, (encAll v vs).u16s,
            (encAll v vs).u32s, (encAll v vs).u64s⟩) = some (v :: vs)
    rw [ih v (hmem v (List.mem_cons_self v vs)) (fun w hw => hmem w (List.mem_cons_of_mem v hw))]
    rfl

/-- C2. For every strictly increasing sequence of `u64` values, compressing it
with `Compressed::from` and then collecting the iterator returned by
`Compressed::decompress` yields exactly the original sequence, element for
element and in order. -/
theorem c2_compression_round_trip (l : List Nat) (_hinc : l.Pairwise (· < ·))
    (hmem : ∀ v ∈ l, v < 2 ^ 64) :
    (Compressed.fromList l).decompress.collect = some l := by
  rw [fromList_eq]
  exact collect_encAll l 0 (pow2_pos 64) hmem

/-- Witness for C2 at the specification's concrete sequence. -/
theorem c2_compression_round_trip_witness :
    ([0, 1, 2, 4, 100, 123412, 1543245423] : List Nat).Pairwise (· < ·)
    ∧ (∀ v ∈ ([0, 1, 2, 4, 100, 123412, 1543245423] : List Nat), v < 2 ^ 64)
    ∧ (Compressed.fromList [0, 1, 2, 4, 100, 123412, 1543245423]).decompress.collect
        = some [0, 1, 2, 4, 100, 123412, 1543245423] :=
  ⟨by decide, by decide,
    c2_compression_round_trip [0, 1, 2, 4, 100, 123412, 1543245423] (by decide) (by decide)⟩

/-! ### Compression: stream invariants -/

theorem streamInv_push (D : Compressed) (d : Nat) (h : streamInv D) :
    streamInv (D.push d) := by
  rcases D with ⟨B, O, S16, S32, S64⟩
  rcases h with ⟨h1, h2, h3, h4⟩
  dsimp only at h1 h2 h3 h4
  by_cases c1 : 0 < d ∧ d < 256
  · refine ⟨?_, ?_, ?_, ?_⟩ <;>
      simp [Compressed.push, c1, zeroCount_append, zeroCount, tierCount_append, tierCount,
        Nat.ne_of_gt c1.1] <;> omega
  · by_cases c2 : d < 65536
    · refine ⟨?_, ?_, ?_, ?_⟩ <;>
        simp [Compressed.push, c1, c2, zeroCount_append, zeroCount, tierCount_append,
          tierCount] <;> omega
    · by_cases c3 : d < 4294967296
      · refine ⟨?_, ?_, ?_, ?_⟩ <;>
          simp [Compressed.push, c1, c2, c3, zeroCount_append, zeroCount, tierCount_append,
            tierCount] <;> omega
      · refine ⟨?_, ?_, ?_, ?_⟩ <;>
          simp [Compressed.push, c1, c2, c3, zeroCount_append, zeroCount, tierCount_append,
            tierCount] <;> omega

theorem streamInv_foldl (l : List Nat) :
    ∀ (c : Compressor), streamInv c.compressed →
      streamInv ((l.foldl Compressor.push c).compressed) := by
  induction l with
  | nil => intro c h; exact h
  | cons v vs ih =>
    intro c h
    exact ih (Compressor.push c v) (streamInv_push c.compressed (wsub64 v c.current) h)

theorem streamInv_empty : streamInv ⟨[], [], [], [], []⟩ :=
  ⟨rfl, rfl, rfl, rfl⟩

theorem decompInv_decompress (C : Compressed) (h : streamInv C) :
    decompInv C.decompress := h

/-- One `next` call on a consistent decompressor: either the tag stream is
exhausted, or a value is yielded, the invariant is preserved, and exactly one
tag byte is consumed. The panic arms are unreachable. -/
theorem next_spec (d : Decompressor) (h : decompInv d) :
    (d.bytes = [] ∧ d.next = NextResult.done)
    ∨ (∃ v rest, d.next = NextResult.yield v rest ∧ decompInv rest
        ∧ rest.bytes.length + 1 = d.bytes.length) := by
  rcases d with ⟨cur, bytes, O, S16, S32, S64⟩
  rcases h with ⟨h1, h2, h3, h4⟩
  dsimp only at h1 h2 h3 h4
  cases bytes with
  | nil => exact Or.inl ⟨rfl, rfl⟩
  | cons b bs =>
    refine Or.inr ?_
    by_cases hb : 0 < b
    · refine ⟨(cur + b) % 2 ^ 64,
        ⟨(cur + b) % 2 ^ 64, bs, O, S16, S32, S64⟩, ?_, ?_, ?_⟩
      · simp [Decompressor.next, hb]
      · refine ⟨?_, h2, h3, h4⟩
        simp only [zeroCount, Nat.ne_of_gt hb, if_neg, if_false] at h1
        simpa using h1
      · simp
    · have hb0 : b = 0 := by omega
      subst hb0
      simp only [zeroCount] at h1
      cases O with
      | nil => simp at h1
      | cons o os =>
        cases o with
        | Unsigned16 =>
          cases S16 with
          | nil => simp [tierCount] at h2
          | cons v vs =>
            refine ⟨(cur + v) % 2 ^ 64,
              ⟨(cur + v) % 2 ^ 64, bs, os, vs, S32, S64⟩, ?_, ?_, ?_⟩
            · simp [Decompressor.next]
            · dsimp only [decompInv]
              refine ⟨?_, ?_, ?_, ?_⟩
              · simp at h1; omega
              · simp [tierCount] at h2 ⊢; omega
              · simp [tierCount] at h3 ⊢; omega
              · simp [tierCount] at h4 ⊢; omega
            · simp
        | Unsigned32 =>
          cases S32 with
          | nil => simp [tierCount] at h3
          | cons v vs =>
            refine ⟨(cur + v) % 2 ^ 64,
              ⟨(cur + v) % 2 ^ 64, bs, os, S16, vs, S64⟩, ?_, ?_, ?_⟩
            · simp [Decompressor.next]
            · dsimp only [decompInv]
              refine ⟨?_, ?_, ?_, ?_⟩
              · simp at h1; omega
              · simp [tierCount] at h2 ⊢; omega
              · simp [tierCount] at h3 ⊢; omega
              · simp [tierCount] at h4 ⊢; omega
            · simp
        | Unsigned64 =>
          cases S64 with
          | nil => simp [tierCount] at h4
          | cons v vs =>
            refine ⟨(cur + v) % 2 ^ 64,
              ⟨(cur + v) % 2 ^ 64, bs, os, S16, S32, vs⟩, ?_, ?_, ?_⟩
            · simp [Decompressor.next]
            · dsimp only [decompInv]
              refine ⟨?_, ?_, ?_, ?_⟩
              · simp at h1; omega
              · simp [tierCount] at h2 ⊢; omega
              · simp [tierCount] at h3 ⊢; omega
              · simp [tierCount] at h4 ⊢; omega
            · simp

theorem collectAux_inv (n : Nat) :
    ∀ (d : Decompressor), decompInv d → d.bytes.length = n →
      ∃ out, collectAux n d = some out ∧ out.length = n := by
  induction n with
  | zero =>
    intro d h hlen
    rcases next_spec d h with ⟨hnil, hdone⟩ | ⟨v, rest, hy, _, hlen'⟩
    · exact ⟨[], by rw [collectAux, hdone], rfl⟩
    · omega
  | succ n ih =>
    intro d h hlen
    rcases next_spec d h with ⟨hnil, _⟩ | ⟨v, rest, hy, hrest, hlen'⟩
    · rw [hnil] at hlen; simp at hlen
    · obtain ⟨out, hout, houtlen⟩ := ih rest hrest (by omega)
      refine ⟨v :: out, ?_, by simp [houtlen]⟩
      rw [collectAux, hy]
      show Option.map (fun l => v :: l) (collectAux n rest) = some (v :: out)
      rw [hout]
      rfl

theorem stepN_inv (k : Nat) :
    ∀ (d st : Decompressor), decompInv d → stepN k d = some st → decompInv st := by
  induction k with
  | zero =>
    intro d st h hs
    cases hs
    exact h
  | succ k ih =>
    intro d st h hs
    rcases next_spec d h with ⟨_, hdone⟩ | ⟨v, rest, hy, hrest, _⟩
    · rw [stepN, hdone] at hs
      cases hs
    · rw [stepN, hy] at hs
      exact ih rest st hrest hs

/-- C8. For every `Compressed` produced by any sequence of operations on a
compressor, the number of zero-valued tag bytes equals the length of the
discriminator array, which equals the combined length of the three overflow
arrays; the invariant is preserved by every push. -/
theorem c8_parallel_array_invariant (n : Nat) (l : List Nat) :
    zeroCount ((l.foldl Compressor.push (Compressor.with_capacity n)).done).bytes
        = ((l.foldl Compressor.push (Compressor.with_capacity n)).done).other.length
    ∧ ((l.foldl Compressor.push (Compressor.with_capacity n)).done).other.length
        = ((l.foldl Compressor.push (Compressor.with_capacity n)).done).u16s.length
          + ((l.foldl Compressor.push (Compressor.with_capacity n)).done).u32s.length
          + ((l.foldl Compressor.push (Compressor.with_capacity n)).done).u64s.length := by
  have h := streamInv_foldl l (Compressor.with_capacity n) streamInv_empty
  rcases h with ⟨h1, h2, h3, h4⟩
  have htot := tierCount_total ((l.foldl Compressor.push (Compressor.with_capacity n)).compressed).other
  simp only [Compressor.done]
  exact ⟨h1, by omega⟩

/-- C9. For every compressor-produced `Compressed`, the decompression iterator
yields exactly as many values as there are tag bytes, and after any number of
successful `next` calls its `size_hint` reports lower and upper bounds both
equal to the exact number of values still to be yielded. -/
theorem c9_size_hint_exact (n : Nat) (l : List Nat) (k : Nat) (st : Decompressor)
    (h : stepN k ((l.foldl Compressor.push (Compressor.with_capacity n)).done).decompress
        = some st) :
    st.size_hint = (st.bytes.length, some st.bytes.length)
    ∧ ∃ out, st.collect = some out ∧ out.length = st.bytes.length := by
  refine ⟨rfl, ?_⟩
  have h0 : decompInv ((l.foldl Compressor.push (Compressor.with_capacity n)).done).decompress :=
    decompInv_decompress _ (streamInv_foldl l (Compressor.with_capacity n) streamInv_empty)
  exact collectAux_inv st.bytes.length st (stepN_inv k _ st h0 h) rfl

/-- Witness for C9 at the one-element sequence `[5]`, before any consumption. -/
theorem c9_size_hint_exact_witness :
    stepN 0 ((([5] : List Nat).foldl Compressor.push (Compressor.with_capacity 1)).done).decompress
        = some ((([5] : List Nat).foldl Compressor.push (Compressor.with_capacity 1)).done).decompress
    ∧ (((([5] : List Nat).foldl Compressor.push
          (Compressor.with_capacity 1)).done).decompress.size_hint
        = (((([5] : List Nat).foldl Compressor.push
            (Compressor.with_capacity 1)).done).decompress.bytes.length,
          some ((((([5] : List Nat)).foldl Compressor.push
            (Compressor.with_capacity 1)).done).decompress.bytes.length))
      ∧ ∃ out, ((([5] : List Nat).foldl Compressor.push
            (Compressor.with_capacity 1)).done).decompress.collect = some out
          ∧ out.length = ((([5] : List Nat).foldl Compressor.push
              (Compressor.with_capacity 1)).done).decompress.bytes.length) :=
  ⟨rfl, c9_size_hint_exact 1 [5] 0 _ rfl⟩

/-! ### Compression: encoding tiers -/

/-- `Compressed::push` characterised tier by tier. -/
theorem push_tiers (D : Compressed) (d : Nat) :
    D.push d =
      if 0 < d ∧ d < 256 then capp D ⟨[d], [], [], [], []⟩
      else if d < 2 ^ 16 then capp D ⟨[0], [Others.Unsigned16], [d], [], []⟩
      else if d < 2 ^ 32 then capp D ⟨[0], [Others.Unsigned32], [], [d], []⟩
      else capp D ⟨[0], [Others.Unsigned64], [], [], [d]⟩ := by
  by_cases c1 : 0 < d ∧ d < 256
  · rw [if_pos c1, push_eq_capp]
    congr 1
    simp [encOne, Compressed.push, c1]
  · rw [if_neg c1]
    by_cases c2 : d < 2 ^ 16
    · have c2' : d < 65536 := c2
      rw [if_pos c2, push_eq_capp]
      congr 1
      simp [encOne, Compressed.push, c1, c2', Nat.mod_eq_of_lt c2']
    · have c2' : ¬ d < 65536 := c2
      rw [if_neg c2]
      by_cases c3 : d < 2 ^ 32
      · have c3' : d < 4294967296 := c3
        rw [if_pos c3, push_eq_capp]
        congr 1
        simp [encOne, Compressed.push, c1, c2', c3', Nat.mod_eq_of_lt c3']
      · have c3' : ¬ d < 4294967296 := c3
        rw [if_neg c3, push_eq_capp]
        congr 1
        simp [encOne, Compressed.push, c1, c2', c3']

/-- C6 counterexample. Pushing `2^64 - 1` and then the smaller value `0` is a
decreasing push whose wrapped delta is `1`; it is encoded as the direct tag
byte `1` with no overflow entry, so a non-increasing push does not always take
the overflow path as the claim asserts. -/
theorem c6_counterexample :
    ((Compressor.new.push (2 ^ 64 - 1)).push 0).done.bytes = [0, 1]
    ∧ ((Compressor.new.push (2 ^ 64 - 1)).push 0).done.other = [Others.Unsigned64]
    ∧ ((Compressor.new.push (2 ^ 64 - 1)).push 0).done.u16s = []
    ∧ ((Compressor.new.push (2 ^ 64 - 1)).push 0).done.u32s = []
    ∧ ((Compressor.new.push (2 ^ 64 - 1)).push 0).done.u64s = [2 ^ 64 - 1] :=
  ⟨rfl, rfl, rfl, rfl, rfl⟩

/-- C6 as amended. `Compressor::push(next)` never signals an error for any
`next`: the encoded delta `d` is the wrapping difference (`(cur + d) % 2^64 =
next`), after which `current` becomes `next`; a non-increasing push silently
encodes the wrapped delta, via the overflow path when the wrapped delta is `0`
or at least `256`, and as a direct tag byte when it lands in `1..255`. -/
theorem c6_push_wrapping_amended (cur next : Nat) (D : Compressed)
    (hc : cur < 2 ^ 64) (hn : next < 2 ^ 64) :
    ∃ d, Compressor.push ⟨cur, D⟩ next = ⟨next, D.push d⟩
      ∧ d < 2 ^ 64 ∧ (cur + d) % 2 ^ 64 = next
      ∧ ((0 < d ∧ d < 256) →
          (D.push d).bytes = D.bytes ++ [d] ∧ (D.push d).other = D.other
          ∧ (D.push d).u16s = D.u16s ∧ (D.push d).u32s = D.u32s
          ∧ (D.push d).u64s = D.u64s)
      ∧ ((d = 0 ∨ 256 ≤ d) →
          (D.push d).bytes = D.bytes ++ [0]
          ∧ (D.push d).other.length = D.other.length + 1
          ∧ (D.push d).u16s.length + (D.push d).u32s.length + (D.push d).u64s.length
            = D.u16s.length + D.u32s.length + D.u64s.length + 1) := by
  refine ⟨wsub64 next cur, rfl, wsub64_lt next cur, wsub64_add cur next hc hn, ?_, ?_⟩
  · intro h
    rw [push_tiers, if_pos h]
    cases D
    simp [capp]
  · intro h
    have c1 : ¬ (0 < wsub64 next cur ∧ wsub64 next cur < 256) := by omega
    rw [push_tiers, if_neg c1]
    cases D
    by_cases c2 : wsub64 next cur < 2 ^ 16
    · rw [if_pos c2]
      refine ⟨by simp [capp], by simp [capp], by simp [capp]; omega⟩
    · rw [if_neg c2]
      by_cases c3 : wsub64 next cur < 2 ^ 32
      · rw [if_pos c3]
        refine ⟨by simp [capp], by simp [capp], by simp [capp]; omega⟩
      · rw [if_neg c3]
        refine ⟨by simp [capp], by simp [capp], by simp [capp]; omega⟩

/-- Witness for the amended C6 at the decreasing push `5` then `3`. -/
theorem c6_push_wrapping_amended_witness :
    (5 : Nat) < 2 ^ 64 ∧ (3 : Nat) < 2 ^ 64
    ∧ (∃ d, Compressor.push ⟨5, ⟨[], [], [], [], []⟩⟩ 3
          = ⟨3, Compressed.push ⟨[], [], [], [], []⟩ d⟩
        ∧ d < 2 ^ 64 ∧ (5 + d) % 2 ^ 64 = 3
        ∧ ((0 < d ∧ d < 256) →
            (Compressed.push ⟨[], [], [], [], []⟩ d).bytes = [] ++ [d]
            ∧ (Compressed.push ⟨[], [], [], [], []⟩ d).other = []
            ∧ (Compressed.push ⟨[], [], [], [], []⟩ d).u16s = []
            ∧ (Compressed.push ⟨[], [], [], [], []⟩ d).u32s = []
            ∧ (Compressed.push ⟨[], [], [], [], []⟩ d).u64s = [])
        ∧ ((d = 0 ∨ 256 ≤ d) →
            (Compressed.push ⟨[], [], [], [], []⟩ d).bytes = [] ++ [0]
            ∧ (Compressed.push ⟨[], [], [], [], []⟩ d).other.length
                = List.length ([] : List Others) + 1
            ∧ (Compressed.push ⟨[], [], [], [], []⟩ d).u16s.length
                + (Compressed.push ⟨[], [], [], [], []⟩ d).u32s.length
                + (Compressed.push ⟨[], [], [], [], []⟩ d).u64s.length
              = List.length ([] : List Nat) + List.length ([] : List Nat)
                + List.length ([] : List Nat) + 1)) :=
  ⟨by decide, by decide,
    c6_push_wrapping_amended 5 3 ⟨[], [], [], [], []⟩ (by decide) (by decide)⟩

/-- C7. Every pushed delta lands in exactly one documented tier: a delta in
`1..255` is itself the appended tag byte with no overflow entry; a delta that
is `0` or at least `256` appends a zero tag byte together with exactly one
overflow entry in the stream selected by width and a matching discriminator
entry; the deltas `1` and `255` are direct bytes, `256` and `65535` use the
16-bit stream, `65536` and `2^32 - 1` the 32-bit stream, `2^32` the 64-bit
stream, and each such delta round-trips through decompression. -/
theorem c7_width_escalation_tiers (D : Compressed) (d : Nat) :
    (D.push d =
      if 0 < d ∧ d < 256 then capp D ⟨[d], [], [], [], []⟩
      else if d < 2 ^ 16 then capp D ⟨[0], [Others.Unsigned16], [d], [], []⟩
      else if d < 2 ^ 32 then capp D ⟨[0], [Others.Unsigned32], [], [d], []⟩
      else capp D ⟨[0], [Others.Unsigned64], [], [], [d]⟩)
    ∧ encOne 1 = ⟨[1], [], [], [], []⟩
    ∧ encOne 255 = ⟨[255], [], [], [], []⟩
    ∧ encOne 256 = ⟨[0], [Others.Unsigned16], [256], [], []⟩
    ∧ encOne 65535 = ⟨[0], [Others.Unsigned16], [65535], [], []⟩
    ∧ encOne 65536 = ⟨[0], [Others.Unsigned32], [], [65536], []⟩
    ∧ encOne (2 ^ 32 - 1) = ⟨[0], [Others.Unsigned32], [], [2 ^ 32 - 1], []⟩
    ∧ encOne (2 ^ 32) = ⟨[0], [Others.Unsigned64], [], [], [2 ^ 32]⟩
    ∧ (Compressed.fromList [1]).decompress.collect = some [1]
    ∧ (Compressed.fromList [255]).decompress.collect = some [255]
    ∧ (Compressed.fromList [256]).decompress.collect = some [256]
    ∧ (Compressed.fromList [65535]).decompress.collect = some [65535]
    ∧ (Compressed.fromList [65536]).decompress.collect = some [65536]
    ∧ (Compressed.fromList [2 ^ 32 - 1]).decompress.collect = some [2 ^ 32 - 1]
    ∧ (Compressed.fromList [2 ^ 32]).decompress.collect = some [2 ^ 32] :=
  ⟨push_tiers D d, by decide, by decide, by decide, by decide, by decide, by decide,
    by decide, by decide, by decide, by decide, by decide, by decide, by decide, by decide⟩

/-! ### Claim C5: the per-step rotation -/

/-- C5 counterexample. At width `1` (`off = 1`) with `ry = 0`, `rx = 1` the
pair `(0, 1)` is mapped to `(off - 1, off - 0) = (0, 1)`, not to the claim's
`(off - 0, off - 1) = (1, 0)`: the branch reflects AND swaps. -/
theorem c5_counterexample :
    Hilbert.bit_rotate 1 (0, 1) 1 0 = (0, 1)
    ∧ ¬ Hilbert.bit_rotate 1 (0, 1) 1 0 = (2 ^ 1 - 1 - 0, 2 ^ 1 - 1 - 1) := by
  constructor
  · decide
  · decide

/-- C5 as amended. In `Hilbert::bit_rotate` with remaining bit width `w = logn`
and `off = 2^w - 1`, when `ry = 0` and `rx = 1` the pair `(a, b)` is reflected
and swapped, to `(off - b, off - a)`; when `ry = 0` and `rx = 0` it becomes the
swap `(b, a)`; in all other cases it is unchanged. -/
theorem c5_bit_rotate_amended (logn a b rx ry : Nat)
    (ha : a ≤ 2 ^ logn - 1) (hb : b ≤ 2 ^ logn - 1) (hlogn : logn ≤ 31) :
    (ry = 0 → rx = 1 →
      Hilbert.bit_rotate logn (a, b) rx ry = (2 ^ logn - 1 - b, 2 ^ logn - 1 - a))
    ∧ (ry = 0 → rx = 0 → Hilbert.bit_rotate logn (a, b) rx ry = (b, a))
    ∧ (ry ≠ 0 → Hilbert.bit_rotate logn (a, b) rx ry = (a, b)) := by
  have hoff : 2 ^ logn - 1 < 2 ^ 32 := by
    have h1 : (2 : Nat) ^ logn ≤ 2 ^ 31 := Nat.pow_le_pow_right (by norm_num) hlogn
    have h2 : (2 : Nat) ^ 31 < 2 ^ 32 := by norm_num
    omega
  refine ⟨?_, ?_, ?_⟩
  · intro h0 h1
    subst h0 h1
    simp only [Hilbert.bit_rotate, if_pos rfl, if_pos (by norm_num : (1 : Nat) ≠ 0)]
    rw [wsub32_exact _ _ hoff hb, wsub32_exact _ _ hoff ha]
    simp
  · intro h0 h1
    subst h0 h1
    simp [Hilbert.bit_rotate]
  · intro h
    simp [Hilbert.bit_rotate, h]

/-- Witness for the amended C5 at width `1` on the pair `(0, 1)`. -/
theorem c5_bit_rotate_amended_witness :
    ((0 : Nat) ≤ 2 ^ 1 - 1 ∧ (1 : Nat) ≤ 2 ^ 1 - 1 ∧ (1 : Nat) ≤ 31)
    ∧ (((0 : Nat) = 0 → (1 : Nat) = 1 →
        Hilbert.bit_rotate 1 (0, 1) 1 0 = (2 ^ 1 - 1 - 1, 2 ^ 1 - 1 - 0))
      ∧ ((0 : Nat) = 0 → (1 : Nat) = 0 → Hilbert.bit_rotate 1 (0, 1) 1 0 = (1, 0))
      ∧ ((0 : Nat) ≠ 0 → Hilbert.bit_rotate 1 (0, 1) 1 0 = (0, 1))) :=
  ⟨⟨by decide, by decide, by decide⟩,
    c5_bit_rotate_amended 1 0 1 1 0 (by decide) (by decide) (by decide)⟩

/-! ### Z-order: the interleave and its inverse -/

namespace ZOrder

theorem zsum_shift (n x y : Nat) :
    zsum (n + 1) x y = zsum n (x / 2) (y / 2) * 4 + (x % 2 + 2 * (y % 2)) := by
  induction n generalizing x y with
  | zero => simp [zsum]; ring
  | succ n ih =>
    have hx : x / 2 / 2 ^ n = x / 2 ^ (n + 1) := by
      rw [Nat.div_div_eq_div_mul, ← Nat.pow_succ']
    have hy : y / 2 / 2 ^ n = y / 2 ^ (n + 1) := by
      rw [Nat.div_div_eq_div_mul, ← Nat.pow_succ']
    calc zsum (n + 2) x y
        = zsum (n + 1) x y + (x / 2 ^ (n + 1) % 2) * 2 ^ (2 * (n + 1))
            + (y / 2 ^ (n + 1) % 2) * 2 ^ (2 * (n + 1) + 1) := rfl
      _ = (zsum n (x / 2) (y / 2) * 4 + (x % 2 + 2 * (y % 2)))
            + (x / 2 / 2 ^ n % 2) * 2 ^ (2 * n + 2)
            + (y / 2 / 2 ^ n % 2) * 2 ^ (2 * n + 3) := by
          rw [ih, hx, hy]
          ring_nf
      _ = zsum (n + 1) (x / 2) (y / 2) * 4 + (x % 2 + 2 * (y % 2)) := by
          show _ = (zsum n (x / 2) (y / 2) + (x / 2 / 2 ^ n % 2) * 2 ^ (2 * n)
            + (y / 2 / 2 ^ n % 2) * 2 ^ (2 * n + 1)) * 4 + (x % 2 + 2 * (y % 2))
          ring

theorem zsum_eq_il (n : Nat) : ∀ x y, zsum n x y = il n x y := by
  induction n with
  | zero => intro x y; rfl
  | succ n ih =>
    intro x y
    rw [zsum_shift, ih, il]
    ring

theorem il_mod (n : Nat) : ∀ x y, il n (x % 2 ^ n) (y % 2 ^ n) = il n x y := by
  induction n with
  | zero => intro x y; rfl
  | succ n ih =>
    intro x y
    have hx : x % 2 ^ (n + 1) / 2 = x / 2 % 2 ^ n := by
      rw [Nat.pow_succ']
      exact Nat.mod_mul_right_div_self x 2 (2 ^ n)
    have hy : y % 2 ^ (n + 1) / 2 = y / 2 % 2 ^ n := by
      rw [Nat.pow_succ']
      exact Nat.mod_mul_right_div_self y 2 (2 ^ n)
    have hx2 : x % 2 ^ (n + 1) % 2 = x % 2 := by
      exact Nat.mod_mod_of_dvd x (dvd_pow_self 2 (Nat.succ_ne_zero n))
    have hy2 : y % 2 ^ (n + 1) % 2 = y % 2 := by
      exact Nat.mod_mod_of_dvd y (dvd_pow_self 2 (Nat.succ_ne_zero n))
    show il n (x % 2 ^ (n + 1) / 2) (y % 2 ^ (n + 1) / 2) * 4
        + x % 2 ^ (n + 1) % 2 + 2 * (y % 2 ^ (n + 1) % 2) = _
    rw [hx, hy, hx2, hy2, ih]
    rfl

theorem il_lt (n : Nat) : ∀ x y, il n x y < 4 ^ n := by
  induction n with
  | zero => intro x y; simp [il]
  | succ n ih =>
    intro x y
    have h := ih (x / 2) (y / 2)
    have hx : x % 2 < 2 := Nat.mod_lt _ (by norm_num)
    have hy : y % 2 < 2 := Nat.mod_lt _ (by norm_num)
    show il n (x / 2) (y / 2) * 4 + x % 2 + 2 * (y % 2) < 4 ^ (n + 1)
    have : (4 : Nat) ^ (n + 1) = 4 ^ n * 4 := by ring
    omega

theorem de_lt (n : Nat) : ∀ z, (de n z).1 < 2 ^ n ∧ (de n z).2 < 2 ^ n := by
  induction n with
  | zero => intro z; exact ⟨Nat.one_pos, Nat.one_pos⟩
  | succ n ih =>
    intro z
    have h := ih (z / 4)
    have h2 : z % 2 < 2 := Nat.mod_lt _ (by norm_num)
    have h3 : z / 2 % 2 < 2 := Nat.mod_lt _ (by norm_num)
    have hp : (2 : Nat) ^ (n + 1) = 2 ^ n * 2 := by ring
    constructor
    · show (de n (z / 4)).1 * 2 + z % 2 < 2 ^ (n + 1)
      omega
    · show (de n (z / 4)).2 * 2 + z / 2 % 2 < 2 ^ (n + 1)
      omega

theorem de_il (n : Nat) : ∀ x y, de n (il n x y) = (x % 2 ^ n, y % 2 ^ n) := by
  induction n with
  | zero => intro x y; simp [de, il, Nat.mod_one]
  | succ n ih =>
    intro x y
    have hz : il (n + 1) x y = il n (x / 2) (y / 2) * 4 + x % 2 + 2 * (y % 2) := rfl
    have hdiv : il (n + 1) x y / 4 = il n (x / 2) (y / 2) := by rw [hz]; omega
    have hm1 : il (n + 1) x y % 2 = x % 2 := by rw [hz]; omega
    have hm2 : il (n + 1) x y / 2 % 2 = y % 2 := by rw [hz]; omega
    have hps : (2 : Nat) ^ (n + 1) = 2 * 2 ^ n := by ring
    have hrx : x / 2 % 2 ^ n * 2 + x % 2 = x % 2 ^ (n + 1) := by
      have h : x % (2 * 2 ^ n) = x % 2 + 2 * (x / 2 % 2 ^ n) := Nat.mod_mul
      rw [hps]
      omega
    have hry : y / 2 % 2 ^ n * 2 + y % 2 = y % 2 ^ (n + 1) := by
      have h : y % (2 * 2 ^ n) = y % 2 + 2 * (y / 2 % 2 ^ n) := Nat.mod_mul
      rw [hps]
      omega
    show ((de n (il (n + 1) x y / 4)).1 * 2 + il (n + 1) x y % 2,
        (de n (il (n + 1) x y / 4)).2 * 2 + il (n + 1) x y / 2 % 2) = _
    rw [hdiv, hm1, hm2, ih]
    simp only [Prod.mk.injEq]
    exact ⟨hrx, hry⟩

theorem il_de (n : Nat) : ∀ z, z < 4 ^ n → il n (de n z).1 (de n z).2 = z := by
  induction n with
  | zero =>
    intro z hz
    interval_cases z
    rfl
  | succ n ih =>
    intro z hz
    have hz4 : z / 4 < 4 ^ n := by
      have : (4 : Nat) ^ (n + 1) = 4 ^ n * 4 := by ring
      omega
    have h := ih (z / 4) hz4
    have hA : ((de n (z / 4)).1 * 2 + z % 2) / 2 = (de n (z / 4)).1 := by omega
    have hAm : ((de n (z / 4)).1 * 2 + z % 2) % 2 = z % 2 := by omega
    have hB : ((de n (z / 4)).2 * 2 + z / 2 % 2) / 2 = (de n (z / 4)).2 := by omega
    have hBm : ((de n (z / 4)).2 * 2 + z / 2 % 2) % 2 = z / 2 % 2 := by omega
    show il n (((de n (z / 4)).1 * 2 + z % 2) / 2) (((de n (z / 4)).2 * 2 + z / 2 % 2) / 2) * 4
        + ((de n (z / 4)).1 * 2 + z % 2) % 2
        + 2 * (((de n (z / 4)).2 * 2 + z / 2 % 2) % 2) = z
    rw [hA, hAm, hB, hBm, h]
    omega

theorem il_split (a : Nat) : ∀ (b x y : Nat),
    il (a + b) x y = il a (x / 2 ^ b) (y / 2 ^ b) * 4 ^ b + il b x y := by
  intro b
  induction b generalizing a with
  | zero => intro x y; simp [il]
  | succ b ih =>
    intro x y
    have hx : x / 2 / 2 ^ b = x / 2 ^ (b + 1) := by
      rw [Nat.div_div_eq_div_mul]
      congr 1
      ring
    have hy : y / 2 / 2 ^ b = y / 2 ^ (b + 1) := by
      rw [Nat.div_div_eq_div_mul]
      congr 1
      ring
    have hstep : il (a + (b + 1)) x y
        = il (a + b) (x / 2) (y / 2) * 4 + x % 2 + 2 * (y % 2) := rfl
    rw [hstep, ih a (x / 2) (y / 2), hx, hy]
    have hil : il (b + 1) x y = il b (x / 2) (y / 2) * 4 + x % 2 + 2 * (y % 2) := rfl
    rw [hil]
    ring

theorem de_split (a : Nat) : ∀ (b z : Nat),
    (de (a + b) z).1 = (de a (z / 4 ^ b)).1 * 2 ^ b + (de b z).1
    ∧ (de (a + b) z).2 = (de a (z / 4 ^ b)).2 * 2 ^ b + (de b z).2 := by
  intro b
  induction b generalizing a with
  | zero => intro z; simp [de]
  | succ b ih =>
    intro z
    have hz : z / 4 / 4 ^ b = z / 4 ^ (b + 1) := by
      rw [Nat.div_div_eq_div_mul]
      congr 1
      ring
    have h1 : (de (a + (b + 1)) z).1 = (de (a + b) (z / 4)).1 * 2 + z % 2 := rfl
    have h2 : (de (a + (b + 1)) z).2 = (de (a + b) (z / 4)).2 * 2 + z / 2 % 2 := rfl
    have g1 : (de (b + 1) z).1 = (de b (z / 4)).1 * 2 + z % 2 := rfl
    have g2 : (de (b + 1) z).2 = (de b (z / 4)).2 * 2 + z / 2 % 2 := rfl
    obtain ⟨i1, i2⟩ := ih a (z / 4)
    constructor
    · rw [h1, g1, i1, hz]
      ring
    · rw [h2, g2, i2, hz]
      ring

theorem de_mod (n : Nat) : ∀ z, de n (z % 4 ^ n) = de n z := by
  induction n with
  | zero => intro z; rfl
  | succ n ih =>
    intro z
    have h4 : (4 : Nat) ^ (n + 1) = 4 * 4 ^ n := by ring
    have hdiv : z % 4 ^ (n + 1) / 4 = z / 4 % 4 ^ n := by
      rw [h4]
      exact Nat.mod_mul_right_div_self z 4 (4 ^ n)
    have hm2 : z % 4 ^ (n + 1) % 2 = z % 2 := by
      apply Nat.mod_mod_of_dvd
      rw [h4]
      exact Dvd.dvd.mul_right (by norm_num) _
    have hd2 : z % 4 ^ (n + 1) / 2 % 2 = z / 2 % 2 := by
      have := chunk_mod 1 1 (2 * (n + 1)) z
      have hpow : (2 : Nat) ^ (2 * (n + 1)) = 4 ^ (n + 1) := by
        rw [Nat.pow_mul]
      rw [hpow] at this
      simpa [pow_one] using this (by omega)
    have r1 : (de (n + 1) (z % 4 ^ (n + 1))).1
        = (de n (z % 4 ^ (n + 1) / 4)).1 * 2 + z % 4 ^ (n + 1) % 2 := rfl
    have r2 : (de (n + 1) (z % 4 ^ (n + 1))).2
        = (de n (z % 4 ^ (n + 1) / 4)).2 * 2 + z % 4 ^ (n + 1) / 2 % 2 := rfl
    have s1 : (de (n + 1) z).1 = (de n (z / 4)).1 * 2 + z % 2 := rfl
    have s2 : (de (n + 1) z).2 = (de n (z / 4)).2 * 2 + z / 2 % 2 := rfl
    have key : de n (z % 4 ^ (n + 1) / 4) = de n (z / 4) := by
      rw [hdiv, ih]
    apply Prod.ext
    · rw [r1, s1, key, hm2]
    · rw [r2, s2, key, hd2]

end ZOrder

/-- Looking up the slot written for index `j` in a table built with injective
keys recovers the byte pair of `j` (later writes never collide with it). -/
theorem buildTab_lookup (key : Nat → Nat)
    (hinj : ∀ i1 i2, i1 < 65536 → i2 < 65536 → key i1 = key i2 → i1 = i2) :
    ∀ (N j : Nat), j < N → N ≤ 65536 →
      buildTab key N (key j) = (j / 256 % 256, j % 256) := by
  intro N
  induction N with
  | zero => intro j hj _; omega
  | succ N ih =>
    intro j hj hN
    by_cases hji : j = N
    · subst hji
      show updFn (buildTab key j) (key j) (j / 256 % 256, j % 256) (key j) = _
      simp [updFn]
    · have hne : key j ≠ key N := fun h => hji (hinj j N (by omega) (by omega) h)
      show updFn (buildTab key N) (key N) (N / 256 % 256, N % 256) (key j) = _
      simp only [updFn, if_neg hne]
      exact ih j (by omega) (by omega)

namespace ZOrder

theorem entangleTable_eq (a b : Nat) (ha : a < 256) (hb : b < 256) :
    entangleTable (a * 256 + b) = il 8 a b := by
  have hidx1 : (a * 256 + b) / 256 % 256 = a := by omega
  have hidx2 : (a * 256 + b) % 256 = b := by omega
  have hlt : il 8 a b < 65536 := by
    have := il_lt 8 a b
    norm_num at this
    exact this
  rw [entangleTable, hidx1, hidx2, zsum_eq_il, Nat.mod_eq_of_lt hlt]

theorem entangleTable_inj (i1 i2 : Nat) (h1 : i1 < 65536) (h2 : i2 < 65536)
    (he : entangleTable i1 = entangleTable i2) : i1 = i2 := by
  have d1 : i1 = (i1 / 256) * 256 + i1 % 256 := by omega
  have d2 : i2 = (i2 / 256) * 256 + i2 % 256 := by omega
  rw [d1, entangleTable_eq _ _ (by omega) (by omega),
    d2, entangleTable_eq _ _ (by omega) (by omega)] at he
  have hd := congrArg (de 8) he
  rw [de_il, de_il] at hd
  have e1 : i1 / 256 % 2 ^ 8 = i2 / 256 % 2 ^ 8 := congrArg Prod.fst hd
  have e2 : i1 % 256 % 2 ^ 8 = i2 % 256 % 2 ^ 8 := congrArg Prod.snd hd
  have hp : (2 : Nat) ^ 8 = 256 := by norm_num
  rw [hp] at e1 e2
  omega

theorem detangleTable_eq (z : Nat) (hz : z < 65536) : detangleTable z = de 8 z := by
  have hp : (4 : Nat) ^ 8 = 65536 := by norm_num
  have hA : (de 8 z).1 < 256 := by
    have := (de_lt 8 z).1
    norm_num at this
    exact this
  have hB : (de 8 z).2 < 256 := by
    have := (de_lt 8 z).2
    norm_num at this
    exact this
  have hil : il 8 (de 8 z).1 (de 8 z).2 = z := il_de 8 z (by omega)
  have hj : (de 8 z).1 * 256 + (de 8 z).2 < 65536 := by omega
  have hkey : entangleTable ((de 8 z).1 * 256 + (de 8 z).2) = z := by
    rw [entangleTable_eq _ _ hA hB, hil]
  have hlook := buildTab_lookup entangleTable entangleTable_inj 65536
    ((de 8 z).1 * 256 + (de 8 z).2) hj le_rfl
  rw [hkey] at hlook
  have j1 : ((de 8 z).1 * 256 + (de 8 z).2) / 256 % 256 = (de 8 z).1 := by omega
  have j2 : ((de 8 z).1 * 256 + (de 8 z).2) % 256 = (de 8 z).2 := by omega
  rw [j1, j2] at hlook
  exact hlook

theorem entangleTable_bytes (x y s : Nat) :
    entangleTable ((x / 2 ^ s % 256) * 256 + (y / 2 ^ s % 256)) = il 8 (x / 2 ^ s) (y / 2 ^ s) := by
  rw [entangleTable_eq _ _ (Nat.mod_lt _ (by norm_num)) (Nat.mod_lt _ (by norm_num))]
  have hp : (2 : Nat) ^ 8 = 256 := by norm_num
  rw [← hp] at *
  exact il_mod 8 (x / 2 ^ s) (y / 2 ^ s)

theorem entangle_eq_il (x y : Nat) : entangle x y = il 32 x y := by
  have h0 : entangleTable ((x % 256) * 256 + y % 256) = il 8 x y := by
    have := entangleTable_bytes x y 0
    simpa using this
  have h8 := entangleTable_bytes x y 8
  have h16 := entangleTable_bytes x y 16
  have h24 := entangleTable_bytes x y 24
  have s1 : il 32 x y = il 24 (x / 2 ^ 8) (y / 2 ^ 8) * 4 ^ 8 + il 8 x y := il_split 24 8 x y
  have s2 : il 24 (x / 2 ^ 8) (y / 2 ^ 8)
      = il 16 (x / 2 ^ 8 / 2 ^ 8) (y / 2 ^ 8 / 2 ^ 8) * 4 ^ 8 + il 8 (x / 2 ^ 8) (y / 2 ^ 8) :=
    il_split 16 8 _ _
  have s3 : il 16 (x / 2 ^ 8 / 2 ^ 8) (y / 2 ^ 8 / 2 ^ 8)
      = il 8 (x / 2 ^ 8 / 2 ^ 8 / 2 ^ 8) (y / 2 ^ 8 / 2 ^ 8 / 2 ^ 8) * 4 ^ 8
        + il 8 (x / 2 ^ 8 / 2 ^ 8) (y / 2 ^ 8 / 2 ^ 8) := il_split 8 8 _ _
  have d16 : ∀ v : Nat, v / 2 ^ 8 / 2 ^ 8 = v / 2 ^ 16 := by
    intro v
    rw [Nat.div_div_eq_div_mul]
    norm_num
  have d24 : ∀ v : Nat, v / 2 ^ 16 / 2 ^ 8 = v / 2 ^ 24 := by
    intro v
    rw [Nat.div_div_eq_div_mul]
    norm_num
  rw [d16 x, d16 y] at s2 s3
  rw [d24 x, d24 y] at s3
  rw [entangle, h0, h8, h16, h24, s1, s2, s3]
  norm_num
  ring

theorem detangleTable_chunk (t s : Nat) :
    detangleTable (t / 2 ^ s % 65536) = de 8 (t / 2 ^ s) := by
  rw [detangleTable_eq _ (Nat.mod_lt _ (by norm_num))]
  have hp : (4 : Nat) ^ 8 = 65536 := by norm_num
  rw [← hp]
  exact de_mod 8 (t / 2 ^ s)

theorem detangle_eq_de (t : Nat) : detangle t = de 32 t := by
  have h0 : detangleTable (t % 65536) = de 8 t := by
    have := detangleTable_chunk t 0
    simpa using this
  have h16 := detangleTable_chunk t 16
  have h32 := detangleTable_chunk t 32
  have h48 := detangleTable_chunk t 48
  have hp : (4 : Nat) ^ 8 = 2 ^ 16 := by norm_num
  have d32 : ∀ v : Nat, v / 2 ^ 16 / 2 ^ 16 = v / 2 ^ 32 := by
    intro v
    rw [Nat.div_div_eq_div_mul]
    norm_num
  have d48 : ∀ v : Nat, v / 2 ^ 32 / 2 ^ 16 = v / 2 ^ 48 := by
    intro v
    rw [Nat.div_div_eq_div_mul]
    norm_num
  have s1 := de_split 24 8 t
  have s2 := de_split 16 8 (t / 4 ^ 8)
  have s3 := de_split 8 8 (t / 4 ^ 8 / 4 ^ 8)
  rw [hp] at s1 s2 s3
  rw [d32 t] at s3
  apply Prod.ext
  · show (detangleTable (t % 65536)).1 + (detangleTable (t / 2 ^ 16 % 65536)).1 * 2 ^ 8
        + (detangleTable (t / 2 ^ 32 % 65536)).1 * 2 ^ 16
        + (detangleTable (t / 2 ^ 48 % 65536)).1 * 2 ^ 24 = (de 32 t).1
    rw [h0, h16, h32, h48, s1.1, s2.1, d32 t, s3.1, d48 t]
    ring
  · show (detangleTable (t % 65536)).2 + (detangleTable (t / 2 ^ 16 % 65536)).2 * 2 ^ 8
        + (detangleTable (t / 2 ^ 32 % 65536)).2 * 2 ^ 16
        + (detangleTable (t / 2 ^ 48 % 65536)).2 * 2 ^ 24 = (de 32 t).2
    rw [h0, h16, h32, h48, s1.2, s2.2, d32 t, s3.2, d48 t]
    ring

theorem round_trip_fwd (x y : Nat) (hx : x < 2 ^ 32) (hy : y < 2 ^ 32) :
    detangle (entangle x y) = (x, y) := by
  rw [entangle_eq_il, detangle_eq_de, de_il, Nat.mod_eq_of_lt hx, Nat.mod_eq_of_lt hy]

theorem round_trip_bwd (t : Nat) (ht : t < 2 ^ 64) :
    entangle (detangle t).1 (detangle t).2 = t := by
  have h : t < 4 ^ 32 := by
    have : (4 : Nat) ^ 32 = 2 ^ 64 := by norm_num
    omega
  rw [detangle_eq_de, entangle_eq_il]
  exact il_de 32 t h

end ZOrder

/-! ### Hilbert: the bit-at-a-time reference algorithm -/

namespace Hilbert

theorem entLoop_succ (k : Nat) (p : Nat × Nat) :
    entLoop (k + 1) p = ((3 * bitOf p.1 k) ^^^ bitOf p.2 k) * 2 ^ (2 * k)
      + entLoop k (bit_rotate k p (bitOf p.1 k) (bitOf p.2 k)) := rfl

theorem detLoop_succ (k t : Nat) :
    detLoop (k + 1) t
      = ((bit_rotate k (detLoop k t) (t / 2 ^ (2 * k) % 4 / 2 % 2)
            ((t / 2 ^ (2 * k) % 4 ^^^ t / 2 ^ (2 * k) % 4 / 2 % 2) % 2)).1
            + t / 2 ^ (2 * k) % 4 / 2 % 2 * 2 ^ k,
          (bit_rotate k (detLoop k t) (t / 2 ^ (2 * k) % 4 / 2 % 2)
            ((t / 2 ^ (2 * k) % 4 ^^^ t / 2 ^ (2 * k) % 4 / 2 % 2) % 2)).2
            + (t / 2 ^ (2 * k) % 4 ^^^ t / 2 ^ (2 * k) % 4 / 2 % 2) % 2 * 2 ^ k) := rfl

theorem two_pow_two_mul (k : Nat) : (2 : Nat) ^ (2 * k) = 4 ^ k := by
  rw [Nat.pow_mul]

theorem entLoop_lt (k : Nat) : ∀ p : Nat × Nat, entLoop k p < 4 ^ k := by
  induction k with
  | zero => intro p; simp [entLoop]
  | succ k ih =>
    intro p
    rw [entLoop_succ, two_pow_two_mul]
    have hc := code_lt (bitOf p.1 k) (bitOf p.2 k) (bitOf_lt_two _ _) (bitOf_lt_two _ _)
    have hr := ih (bit_rotate k p (bitOf p.1 k) (bitOf p.2 k))
    have h4 : (4 : Nat) ^ (k + 1) = 4 ^ k * 4 := by ring
    have hd : ((3 * bitOf p.1 k) ^^^ bitOf p.2 k) * 4 ^ k ≤ 3 * 4 ^ k :=
      Nat.mul_le_mul_right _ (by omega)
    omega

theorem off_lt (k : Nat) (hk : k ≤ 31) : 2 ^ k - 1 < 2 ^ 32 := by
  have h1 : (2 : Nat) ^ k ≤ 2 ^ 31 := Nat.pow_le_pow_right (by norm_num) hk
  have h2 : (2 : Nat) ^ 31 < 2 ^ 32 := by norm_num
  omega

/-- The rotation on in-range pairs, without wrapping. -/
theorem bit_rotate_exact (k : Nat) (p : Nat × Nat) (rx ry : Nat) (hk : k ≤ 31)
    (h1 : p.1 ≤ 2 ^ k - 1) (h2 : p.2 ≤ 2 ^ k - 1) :
    bit_rotate k p rx ry
      = if ry = 0 then
          (if rx ≠ 0 then (2 ^ k - 1 - p.2, 2 ^ k - 1 - p.1) else (p.2, p.1))
        else p := by
  rw [bit_rotate]
  by_cases hry : ry = 0
  · rw [if_pos hry, if_pos hry]
    by_cases hrx : rx ≠ 0
    · rw [if_pos hrx, if_pos hrx,
        wsub32_exact _ _ (off_lt k hk) h2, wsub32_exact _ _ (off_lt k hk) h1]
    · rw [if_neg hrx, if_neg hrx]
  · rw [if_neg hry, if_neg hry]

theorem detLoop_lt (k : Nat) (hk : k ≤ 32) :
    ∀ t, (detLoop k t).1 < 2 ^ k ∧ (detLoop k t).2 < 2 ^ k := by
  induction k with
  | zero => intro t; exact ⟨Nat.one_pos, Nat.one_pos⟩
  | succ k ih =>
    intro t
    obtain ⟨hu, hv⟩ := ih (by omega) t
    have hrx : t / 2 ^ (2 * k) % 4 / 2 % 2 < 2 := Nat.mod_lt _ (by norm_num)
    have hry : (t / 2 ^ (2 * k) % 4 ^^^ t / 2 ^ (2 * k) % 4 / 2 % 2) % 2 < 2 :=
      Nat.mod_lt _ (by norm_num)
    have hpk : 0 < (2 : Nat) ^ k := pow2_pos k
    have hrot := bit_rotate_exact k (detLoop k t) (t / 2 ^ (2 * k) % 4 / 2 % 2)
      ((t / 2 ^ (2 * k) % 4 ^^^ t / 2 ^ (2 * k) % 4 / 2 % 2) % 2) (by omega)
      (by omega) (by omega)
    rw [detLoop_succ, hrot]
    have hp : (2 : Nat) ^ (k + 1) = 2 ^ k * 2 := by ring
    have hj1 : t / 2 ^ (2 * k) % 4 / 2 % 2 * 2 ^ k ≤ 1 * 2 ^ k :=
      Nat.mul_le_mul_right _ (by omega)
    have hj2 : (t / 2 ^ (2 * k) % 4 ^^^ t / 2 ^ (2 * k) % 4 / 2 % 2) % 2 * 2 ^ k ≤ 1 * 2 ^ k :=
      Nat.mul_le_mul_right _ (by omega)
    rw [Nat.one_mul] at hj1 hj2
    by_cases h0 : (t / 2 ^ (2 * k) % 4 ^^^ t / 2 ^ (2 * k) % 4 / 2 % 2) % 2 = 0
    · rw [if_pos h0]
      by_cases h1 : t / 2 ^ (2 * k) % 4 / 2 % 2 ≠ 0
      · rw [if_pos h1]
        constructor <;> dsimp only <;> omega
      · rw [if_neg h1]
        constructor <;> dsimp only <;> omega
    · rw [if_neg h0]
      constructor <;> dsimp only <;> omega

/-- `detLoop k` only reads the low `2k` bits of the tangle. -/
theorem detLoop_ext (k : Nat) :
    ∀ t1 t2, (∀ j, j < k → t1 / 2 ^ (2 * j) % 4 = t2 / 2 ^ (2 * j) % 4) →
      detLoop k t1 = detLoop k t2 := by
  induction k with
  | zero => intro t1 t2 _; rfl
  | succ k ih =>
    intro t1 t2 h
    have hrec : detLoop k t1 = detLoop k t2 :=
      ih t1 t2 (fun j hj => h j (by omega))
    rw [detLoop_succ, detLoop_succ, hrec, h k (by omega)]

theorem detLoop_mod (k m t : Nat) (h : 2 * k ≤ m) :
    detLoop k (t % 2 ^ m) = detLoop k t := by
  apply detLoop_ext
  intro j hj
  have := chunk_mod (2 * j) 2 m t (by omega)
  have h4 : (2 : Nat) ^ 2 = 4 := by norm_num
  rw [h4] at this
  exact this

/-- `entLoop k` only depends on the pair modulo `2^k`. -/
theorem entLoop_mod (k : Nat) (hk : k ≤ 32) :
    ∀ p : Nat × Nat, entLoop k p = entLoop k (p.1 % 2 ^ k, p.2 % 2 ^ k) := by
  induction k with
  | zero => intro p; rfl
  | succ k ih =>
    intro p
    rw [entLoop_succ, entLoop_succ]
    have hb1 : bitOf (p.1 % 2 ^ (k + 1)) k = bitOf p.1 k := bitOf_mod _ _ _ (by omega)
    have hb2 : bitOf (p.2 % 2 ^ (k + 1)) k = bitOf p.2 k := bitOf_mod _ _ _ (by omega)
    dsimp only
    rw [hb1, hb2]
    congr 1
    set rx := bitOf p.1 k
    set ry := bitOf p.2 k
    have key : ((bit_rotate k p rx ry).1 % 2 ^ k, (bit_rotate k p rx ry).2 % 2 ^ k)
        = ((bit_rotate k (p.1 % 2 ^ (k + 1), p.2 % 2 ^ (k + 1)) rx ry).1 % 2 ^ k,
           (bit_rotate k (p.1 % 2 ^ (k + 1), p.2 % 2 ^ (k + 1)) rx ry).2 % 2 ^ k) := by
      have hmm : ∀ v : Nat, v % 2 ^ (k + 1) % 2 ^ k = v % 2 ^ k := fun v =>
        Nat.mod_mod_of_dvd v (Nat.pow_dvd_pow 2 (by omega))
      rw [bit_rotate, bit_rotate]
      by_cases hry : ry = 0
      · rw [if_pos hry, if_pos hry]
        by_cases hrx : rx ≠ 0
        · rw [if_pos hrx, if_pos hrx]
          dsimp only
          rw [wsub32_mod k _ (by omega), wsub32_mod k _ (by omega),
            wsub32_mod k _ (by omega), wsub32_mod k _ (by omega), hmm p.1, hmm p.2]
        · rw [if_neg hrx, if_neg hrx]
          dsimp only
          rw [hmm p.1, hmm p.2]
      · rw [if_neg hry, if_neg hry]
        dsimp only
        rw [hmm p.1, hmm p.2]
    calc entLoop k (bit_rotate k p rx ry)
        = entLoop k ((bit_rotate k p rx ry).1 % 2 ^ k,
            (bit_rotate k p rx ry).2 % 2 ^ k) := ih (by omega) _
      _ = entLoop k ((bit_rotate k (p.1 % 2 ^ (k + 1), p.2 % 2 ^ (k + 1)) rx ry).1 % 2 ^ k,
            (bit_rotate k (p.1 % 2 ^ (k + 1), p.2 % 2 ^ (k + 1)) rx ry).2 % 2 ^ k) := by
          rw [key]
      _ = entLoop k (bit_rotate k (p.1 % 2 ^ (k + 1), p.2 % 2 ^ (k + 1)) rx ry) :=
          (ih (by omega) _).symm

/-- The bit-reference detangle inverts the bit-reference entangle. -/
theorem detLoop_entLoop (k : Nat) (hk : k ≤ 32) :
    ∀ x y, detLoop k (entLoop k (x, y)) = (x % 2 ^ k, y % 2 ^ k) := by
  induction k with
  | zero => intro x y; simp [detLoop, entLoop, Nat.mod_one]
  | succ k ih =>
    intro x y
    have hrx2 : bitOf x k < 2 := bitOf_lt_two x k
    have hry2 : bitOf y k < 2 := bitOf_lt_two y k
    set rx := bitOf x k with hrxdef
    set ry := bitOf y k with hrydef
    set c := (3 * rx) ^^^ ry with hcdef
    set p' := bit_rotate k (x, y) rx ry with hpdefn
    set E := entLoop k p' with hEdef
    have hc4 : c < 4 := code_lt rx ry hrx2 hry2
    have hE : E < 4 ^ k := entLoop_lt k p'
    have h4k := two_pow_two_mul k
    have hsucc : entLoop (k + 1) (x, y) = c * 2 ^ (2 * k) + E := entLoop_succ k (x, y)
    rw [hsucc, detLoop_succ]
    have hchunk : (c * 2 ^ (2 * k) + E) / 2 ^ (2 * k) % 4 = c := by
      rw [h4k, Nat.mul_comm c (4 ^ k), Nat.mul_add_div (by positivity),
        Nat.div_eq_of_lt hE, Nat.add_zero, Nat.mod_eq_of_lt hc4]
    have hlow : detLoop k (c * 2 ^ (2 * k) + E) = detLoop k E := by
      have hEq : (c * 2 ^ (2 * k) + E) % 2 ^ (2 * k) = E := by
        rw [Nat.mul_comm c (2 ^ (2 * k)), Nat.mul_add_mod, Nat.mod_eq_of_lt (by omega)]
      calc detLoop k (c * 2 ^ (2 * k) + E)
          = detLoop k ((c * 2 ^ (2 * k) + E) % 2 ^ (2 * k)) :=
            (detLoop_mod k (2 * k) _ le_rfl).symm
        _ = detLoop k E := by rw [hEq]
    rw [hchunk, hlow]
    have hdrx : c / 2 % 2 = rx := decode_rx rx ry hrx2 hry2
    have hdry : (c ^^^ rx) % 2 = ry := by
      have h := decode_ry rx ry hrx2 hry2
      rw [← hcdef] at h
      rw [hdrx] at h
      exact h
    rw [hdrx, hdry]
    have hIH : detLoop k E = (p'.1 % 2 ^ k, p'.2 % 2 ^ k) := by
      have h := ih (by omega) p'.1 p'.2
      simp only [Prod.mk.eta] at h
      exact h
    rw [hIH]
    have hxk : x % 2 ^ (k + 1) = x % 2 ^ k + rx * 2 ^ k := mod_succ_bit k x
    have hyk : y % 2 ^ (k + 1) = y % 2 ^ k + ry * 2 ^ k := mod_succ_bit k y
    have hxlt : x % 2 ^ k < 2 ^ k := Nat.mod_lt _ (pow2_pos k)
    have hylt : y % 2 ^ k < 2 ^ k := Nat.mod_lt _ (pow2_pos k)
    rcases (by omega : ry = 0 ∨ ry = 1) with hry | hry
    · rcases (by omega : rx = 0 ∨ rx = 1) with hrx | hrx
      · have hp2 : p' = (y, x) := by
          rw [hpdefn, hrx, hry]
          simp [bit_rotate]
        have hrot : bit_rotate k (p'.1 % 2 ^ k, p'.2 % 2 ^ k) rx ry
            = (x % 2 ^ k, y % 2 ^ k) := by
          rw [hp2, hrx, hry]
          simp [bit_rotate]
        rw [hrot]
        apply Prod.ext <;> dsimp only <;> omega
      · have hp2 : p' = (wsub32 (2 ^ k - 1) y, wsub32 (2 ^ k - 1) x) := by
          rw [hpdefn, hrx, hry]
          simp [bit_rotate]
        have hm1 : p'.1 % 2 ^ k = 2 ^ k - 1 - y % 2 ^ k := by
          rw [hp2]
          exact wsub32_mod k y (by omega)
        have hm2 : p'.2 % 2 ^ k = 2 ^ k - 1 - x % 2 ^ k := by
          rw [hp2]
          exact wsub32_mod k x (by omega)
        have hrot : bit_rotate k (p'.1 % 2 ^ k, p'.2 % 2 ^ k) rx ry
            = (x % 2 ^ k, y % 2 ^ k) := by
          rw [hm1, hm2, hrx, hry,
            bit_rotate_exact k _ 1 0 (by omega) (by dsimp only; omega) (by dsimp only; omega)]
          rw [if_pos rfl, if_pos (by norm_num)]
          dsimp only
          apply Prod.ext <;> dsimp only <;> omega
        rw [hrot]
        apply Prod.ext <;> dsimp only <;> omega
    · have hp2 : p' = (x, y) := by
        rw [hpdefn, hry]
        simp [bit_rotate]
      have hrot : bit_rotate k (p'.1 % 2 ^ k, p'.2 % 2 ^ k) rx ry
          = (x % 2 ^ k, y % 2 ^ k) := by
        rw [hp2, hry]
        simp [bit_rotate]
      rw [hrot]
      apply Prod.ext <;> dsimp only <;> omega

theorem bitOf_add_high (a r k : Nat) (ha : a < 2 ^ k) (hr : r < 2) :
    bitOf (a + r * 2 ^ k) k = r := by
  rw [bitOf, Nat.mul_comm r (2 ^ k), Nat.add_mul_div_left a r (pow2_pos k),
    Nat.div_eq_of_lt ha]
  omega

theorem mod_add_high (a r k : Nat) (ha : a < 2 ^ k) :
    (a + r * 2 ^ k) % 2 ^ k = a := by
  rw [Nat.add_mul_mod_self_right, Nat.mod_eq_of_lt ha]

/-- The bit-reference entangle inverts the bit-reference detangle. -/
theorem entLoop_detLoop (k : Nat) (hk : k ≤ 32) :
    ∀ t, t < 4 ^ k → entLoop k (detLoop k t) = t := by
  induction k with
  | zero =>
    intro t ht
    interval_cases t
    rfl
  | succ k ih =>
    intro t ht
    have h4k := two_pow_two_mul k
    have hdsucc := detLoop_succ k t
    set c := t / 2 ^ (2 * k) % 4 with hcdef
    set rx := c / 2 % 2 with hrxdef
    set ry := (c ^^^ rx) % 2 with hrydef
    have hc4 : c < 4 := Nat.mod_lt _ (by norm_num)
    have hrx2 : rx < 2 := Nat.mod_lt _ (by norm_num)
    have hry2 : ry < 2 := Nat.mod_lt _ (by norm_num)
    have hUV := detLoop_lt k (by omega) t
    set u := (detLoop k t).1 with hudef
    set v := (detLoop k t).2 with hvdef
    set r1 := bit_rotate k (detLoop k t) rx ry with hr1def
    have hr1 := bit_rotate_exact k (detLoop k t) rx ry (by omega) (by omega) (by omega)
    rw [← hr1def] at hr1
    have htmod : t % 2 ^ (2 * k) < 4 ^ k := by
      rw [← h4k]
      exact Nat.mod_lt _ (by positivity)
    have hIH : entLoop k (detLoop k t) = t % 2 ^ (2 * k) := by
      have hdet : detLoop k t = detLoop k (t % 2 ^ (2 * k)) :=
        (detLoop_mod k (2 * k) t le_rfl).symm
      rw [hdet]
      exact ih (by omega) (t % 2 ^ (2 * k)) htmod
    have hrecomp : c * 2 ^ (2 * k) + t % 2 ^ (2 * k) = t := by
      have hdiv : t / 2 ^ (2 * k) < 4 := by
        apply Nat.div_lt_of_lt_mul
        rw [h4k]
        have : (4 : Nat) ^ (k + 1) = 4 ^ k * 4 := by ring
        omega
      have hce : c = t / 2 ^ (2 * k) := by rw [hcdef, Nat.mod_eq_of_lt hdiv]
      rw [hce, Nat.mul_comm]
      exact Nat.div_add_mod t (2 ^ (2 * k))
    rw [hdsucc, entLoop_succ]
    dsimp only
    have hb1 : bitOf (r1.1 + rx * 2 ^ k) k = rx := by
      apply bitOf_add_high _ _ _ _ hrx2
      rw [hr1]
      by_cases h0 : ry = 0
      · rw [if_pos h0]
        by_cases h1 : rx ≠ 0
        · rw [if_pos h1]; dsimp only; omega
        · rw [if_neg h1]; dsimp only; omega
      · rw [if_neg h0]; omega
    have hb2 : bitOf (r1.2 + ry * 2 ^ k) k = ry := by
      apply bitOf_add_high _ _ _ _ hry2
      rw [hr1]
      by_cases h0 : ry = 0
      · rw [if_pos h0]
        by_cases h1 : rx ≠ 0
        · rw [if_pos h1]; dsimp only; omega
        · rw [if_neg h1]; dsimp only; omega
      · rw [if_neg h0]; omega
    have hcode : (3 * rx) ^^^ ry = c := encode_code c hc4
    rw [hb1, hb2, hcode]
    have hmain : entLoop k (bit_rotate k (r1.1 + rx * 2 ^ k, r1.2 + ry * 2 ^ k) rx ry)
        = t % 2 ^ (2 * k) := by
      rcases (by omega : ry = 0 ∨ ry = 1) with hry | hry
      · rcases (by omega : rx = 0 ∨ rx = 1) with hrx | hrx
        · have hr1v : r1 = (v, u) := by
            rw [hr1, if_pos hry, if_neg (by rw [hrx]; simp)]
          have hrot : bit_rotate k (r1.1 + rx * 2 ^ k, r1.2 + ry * 2 ^ k) rx ry
              = (r1.2 + ry * 2 ^ k, r1.1 + rx * 2 ^ k) := by
            rw [hrx, hry]
            simp [bit_rotate]
          rw [hrot, hr1v, hrx, hry]
          simp only [Nat.zero_mul, Nat.add_zero]
          have : ((u, v) : Nat × Nat) = detLoop k t := by
            rw [hudef, hvdef]
          rw [this]
          exact hIH
        · have hr1v : r1 = (2 ^ k - 1 - v, 2 ^ k - 1 - u) := by
            rw [hr1, if_pos hry, if_pos (by rw [hrx]; simp)]
          have hrot : bit_rotate k (r1.1 + rx * 2 ^ k, r1.2 + ry * 2 ^ k) rx ry
              = (wsub32 (2 ^ k - 1) (r1.2 + ry * 2 ^ k),
                 wsub32 (2 ^ k - 1) (r1.1 + rx * 2 ^ k)) := by
            rw [hrx, hry]
            simp [bit_rotate]
          rw [hrot]
          have hfst : wsub32 (2 ^ k - 1) (r1.2 + ry * 2 ^ k) = u := by
            rw [hr1v, hry]
            dsimp only
            rw [Nat.zero_mul, Nat.add_zero, wsub32_exact _ _ (off_lt k (by omega)) (by omega)]
            omega
          have hsnd : (wsub32 (2 ^ k - 1) (r1.1 + rx * 2 ^ k)) % 2 ^ k = v := by
            rw [hr1v, hrx]
            dsimp only
            rw [Nat.one_mul, wsub32_mod k _ (by omega), Nat.add_mod_right,
              Nat.mod_eq_of_lt (by omega)]
            omega
          rw [entLoop_mod k (by omega)]
          dsimp only
          rw [hfst, hsnd, Nat.mod_eq_of_lt (by omega)]
          have : ((u, v) : Nat × Nat) = detLoop k t := by
            rw [hudef, hvdef]
          rw [this]
          exact hIH
      · have hrot : bit_rotate k (r1.1 + rx * 2 ^ k, r1.2 + ry * 2 ^ k) rx ry
            = (r1.1 + rx * 2 ^ k, r1.2 + ry * 2 ^ k) := by
          rw [hry]
          simp [bit_rotate]
        have hr1v : r1 = (u, v) := by
          rw [hr1, if_neg (by rw [hry]; simp)]
        rw [hrot, entLoop_mod k (by omega)]
        dsimp only
        rw [hr1v]
        dsimp only
        rw [mod_add_high u rx k (by omega), mod_add_high v ry k (by omega)]
        have : ((u, v) : Nat × Nat) = detLoop k t := by
          rw [hudef, hvdef]
        rw [this]
        exact hIH
    rw [hmain]
    exact hrecomp

/-! ### Hilbert: the swap/flip state machine -/

theorem pxor_self_right (a b : Bool × Bool) : pxor (pxor a b) b = a := by
  rcases a with ⟨a1, a2⟩
  rcases b with ⟨b1, b2⟩
  simp [pxor]

theorem pxor_id_right (a : Bool × Bool) : pxor a (false, false) = a := by
  rcases a with ⟨a1, a2⟩
  simp [pxor]

theorem absEnt_succ (k x y : Nat) (st : Bool × Bool) :
    absEnt (k + 1) x y st
      = ((hstep st (bitOf x k) (bitOf y k)).1 * 2 ^ (2 * k)
          + (absEnt k x y (hstep st (bitOf x k) (bitOf y k)).2).1,
         (absEnt k x y (hstep st (bitOf x k) (bitOf y k)).2).2) := rfl

theorem absEnt_fst_lt (k : Nat) : ∀ (x y : Nat) (st : Bool × Bool),
    (absEnt k x y st).1 < 4 ^ k := by
  induction k with
  | zero => intro x y st; simp [absEnt]
  | succ k ih =>
    intro x y st
    rw [absEnt_succ, two_pow_two_mul]
    have hc : (hstep st (bitOf x k) (bitOf y k)).1 < 4 := by
      have ha := bitOf_lt_two x k
      have hb := bitOf_lt_two y k
      rcases st with ⟨s, f⟩
      interval_cases (bitOf x k) <;> interval_cases (bitOf y k) <;>
        cases s <;> cases f <;> decide
    have hr := ih x y (hstep st (bitOf x k) (bitOf y k)).2
    have hd : (hstep st (bitOf x k) (bitOf y k)).1 * 4 ^ k ≤ 3 * 4 ^ k :=
      Nat.mul_le_mul_right _ (by omega)
    have h4 : (4 : Nat) ^ (k + 1) = 4 ^ k * 4 := by ring
    dsimp only
    omega

theorem absEnt_mod (k : Nat) : ∀ (m x y : Nat) (st : Bool × Bool), k ≤ m →
    absEnt k (x % 2 ^ m) (y % 2 ^ m) st = absEnt k x y st := by
  induction k with
  | zero => intro m x y st _; rfl
  | succ k ih =>
    intro m x y st hm
    rw [absEnt_succ, absEnt_succ, bitOf_mod x k m (by omega), bitOf_mod y k m (by omega),
      ih m x y _ (by omega)]

theorem absEnt_split (j : Nat) : ∀ (k x y : Nat) (st : Bool × Bool),
    absEnt (j + k) x y st
      = ((absEnt j (x / 2 ^ k) (y / 2 ^ k) st).1 * 4 ^ k
            + (absEnt k x y (absEnt j (x / 2 ^ k) (y / 2 ^ k) st).2).1,
         (absEnt k x y (absEnt j (x / 2 ^ k) (y / 2 ^ k) st).2).2) := by
  induction j with
  | zero =>
    intro k x y st
    simp [absEnt]
  | succ j ih =>
    intro k x y st
    have hidx : j + 1 + k = (j + k) + 1 := by omega
    rw [hidx, absEnt_succ]
    have hb1 : bitOf x (j + k) = bitOf (x / 2 ^ k) j := by
      rw [bitOf_div]
      congr 1
      omega
    have hb2 : bitOf y (j + k) = bitOf (y / 2 ^ k) j := by
      rw [bitOf_div]
      congr 1
      omega
    rw [hb1, hb2, ih k x y _, absEnt_succ]
    dsimp only
    have hpow : (2 : Nat) ^ (2 * (j + k)) = 2 ^ (2 * j) * 4 ^ k := by
      rw [two_pow_two_mul, two_pow_two_mul, ← pow_add]
    rw [hpow]
    apply Prod.ext
    · dsimp only
      ring
    · rfl

theorem app_le (k : Nat) (st : Bool × Bool) (x y : Nat) :
    (app k st x y).1 ≤ 2 ^ k - 1 ∧ (app k st x y).2 ≤ 2 ^ k - 1 := by
  rcases st with ⟨s, f⟩
  have hx : x % 2 ^ k < 2 ^ k := Nat.mod_lt _ (pow2_pos k)
  have hy : y % 2 ^ k < 2 ^ k := Nat.mod_lt _ (pow2_pos k)
  cases s <;> cases f <;> constructor <;> simp [app] <;> omega

theorem app_id (k x y : Nat) : app k (false, false) x y = (x % 2 ^ k, y % 2 ^ k) := rfl

theorem comp_mod (K k v : Nat) (hk : k ≤ K) (hv : v < 2 ^ K) :
    (2 ^ K - 1 - v) % 2 ^ k = 2 ^ k - 1 - v % 2 ^ k := by
  have hKk : (2 : Nat) ^ K = 2 ^ k * 2 ^ (K - k) := by
    rw [← pow_add]
    congr 1
    omega
  rw [hKk]
  exact (chunkdec (2 ^ k) (2 ^ (K - k)) v (pow2_pos k) (by rw [← hKk]; exact hv)).1

theorem app_mod (K k : Nat) (st : Bool × Bool) (x y : Nat) (hk : k ≤ K) :
    ((app K st x y).1 % 2 ^ k, (app K st x y).2 % 2 ^ k) = app k st x y := by
  rcases st with ⟨s, f⟩
  have hmm : ∀ v : Nat, v % 2 ^ K % 2 ^ k = v % 2 ^ k := fun v =>
    Nat.mod_mod_of_dvd v (Nat.pow_dvd_pow 2 hk)
  have hcm : ∀ v : Nat, (2 ^ K - 1 - v % 2 ^ K) % 2 ^ k = 2 ^ k - 1 - v % 2 ^ k := by
    intro v
    rw [comp_mod K k _ hk (Nat.mod_lt _ (pow2_pos K)), hmm]
  cases s <;> cases f <;> simp [app, hmm, hcm]

theorem app_swap (k : Nat) (st : Bool × Bool) (x y : Nat) :
    ((app k st x y).2, (app k st x y).1) = app k (!st.1, st.2) x y := by
  rcases st with ⟨s, f⟩
  cases s <;> cases f <;> rfl

theorem app_compswap (k : Nat) (st : Bool × Bool) (x y : Nat) :
    (2 ^ k - 1 - (app k st x y).2, 2 ^ k - 1 - (app k st x y).1)
      = app k (!st.1, !st.2) x y := by
  rcases st with ⟨s, f⟩
  have hx : x % 2 ^ k < 2 ^ k := Nat.mod_lt _ (pow2_pos k)
  have hy : y % 2 ^ k < 2 ^ k := Nat.mod_lt _ (pow2_pos k)
  cases s <;> cases f <;> apply Prod.ext <;> simp [app] <;> omega

theorem bitOf_app (K k : Nat) (st : Bool × Bool) (x y : Nat) (hk : k < K) :
    bitOf (app K st x y).1 k = (bapp st (bitOf x k) (bitOf y k)).1
    ∧ bitOf (app K st x y).2 k = (bapp st (bitOf x k) (bitOf y k)).2 := by
  rcases st with ⟨s, f⟩
  have hu : ∀ v : Nat, bitOf (v % 2 ^ K) k = bitOf v k := fun v => bitOf_mod v k K hk
  have hc : ∀ v : Nat, bitOf (2 ^ K - 1 - v % 2 ^ K) k = 1 - bitOf v k := by
    intro v
    rw [bitOf_comp K k _ hk (Nat.mod_lt _ (pow2_pos K)), hu]
  cases s <;> cases f <;> constructor <;> simp [app, bapp, hu, hc]

theorem hstep_fst (st : Bool × Bool) (a b : Nat) :
    (hstep st a b).1 = (3 * (bapp st a b).1) ^^^ (bapp st a b).2 := by
  rcases st with ⟨s, f⟩
  cases s <;> cases f <;> rfl

theorem hstep_snd (st : Bool × Bool) (a b : Nat) :
    (hstep st a b).2
      = if (bapp st a b).2 = 0 then
          (if (bapp st a b).1 = 0 then (!st.1, st.2) else (!st.1, !st.2))
        else st := by
  rcases st with ⟨s, f⟩
  cases s <;> cases f <;> rfl

/-- Rotating a transformed pair and truncating composes the rotation into the
swap/flip state, exactly as the `hstep` state update prescribes. -/
theorem rot_app (k K : Nat) (st : Bool × Bool) (x y rx ry : Nat)
    (hkK : k + 1 ≤ K) (hk31 : k ≤ 31) :
    ((bit_rotate k (app K st x y) rx ry).1 % 2 ^ k,
     (bit_rotate k (app K st x y) rx ry).2 % 2 ^ k)
      = app k (if ry = 0 then (if rx = 0 then (!st.1, st.2) else (!st.1, !st.2)) else st) x y := by
  have h := app_mod K k st x y (by omega)
  have h1 : (app K st x y).1 % 2 ^ k = (app k st x y).1 := congrArg Prod.fst h
  have h2 : (app K st x y).2 % 2 ^ k = (app k st x y).2 := congrArg Prod.snd h
  by_cases hry : ry = 0
  · by_cases hrx : rx = 0
    · rw [if_pos hry, if_pos hrx, bit_rotate, if_pos hry, if_neg (by simp [hrx])]
      dsimp only
      rw [h1, h2]
      exact app_swap k st x y
    · rw [if_pos hry, if_neg hrx, bit_rotate, if_pos hry, if_pos hrx]
      dsimp only
      rw [wsub32_mod k _ hk31, wsub32_mod k _ hk31, h1, h2]
      exact app_compswap k st x y
  · rw [if_neg hry, bit_rotate, if_neg hry]
    exact h

/-- The reference entangle of a transformed pair is the state-machine run. -/
theorem corrEnt (k : Nat) (hk : k ≤ 32) :
    ∀ (x y : Nat) (st : Bool × Bool), entLoop k (app k st x y) = (absEnt k x y st).1 := by
  induction k with
  | zero => intro x y st; rfl
  | succ k ih =>
    intro x y st
    rw [entLoop_succ, absEnt_succ]
    have hb := bitOf_app (k + 1) k st x y (by omega)
    dsimp only
    rw [hb.1, hb.2, ← hstep_fst]
    congr 1
    have hst' := hstep_snd st (bitOf x k) (bitOf y k)
    have hrotapp := rot_app k (k + 1) st x y (bapp st (bitOf x k) (bitOf y k)).1
      (bapp st (bitOf x k) (bitOf y k)).2 (le_refl _) (by omega)
    calc entLoop k (bit_rotate k (app (k + 1) st x y)
            (bapp st (bitOf x k) (bitOf y k)).1 (bapp st (bitOf x k) (bitOf y k)).2)
        = entLoop k
            ((bit_rotate k (app (k + 1) st x y)
                (bapp st (bitOf x k) (bitOf y k)).1 (bapp st (bitOf x k) (bitOf y k)).2).1 % 2 ^ k,
             (bit_rotate k (app (k + 1) st x y)
                (bapp st (bitOf x k) (bitOf y k)).1 (bapp st (bitOf x k) (bitOf y k)).2).2 % 2 ^ k) :=
          entLoop_mod k (by omega) _
      _ = entLoop k (app k (if (bapp st (bitOf x k) (bitOf y k)).2 = 0 then
              (if (bapp st (bitOf x k) (bitOf y k)).1 = 0 then (!st.1, st.2)
               else (!st.1, !st.2))
            else st) x y) := by rw [hrotapp]
      _ = (absEnt k x y (if (bapp st (bitOf x k) (bitOf y k)).2 = 0 then
              (if (bapp st (bitOf x k) (bitOf y k)).1 = 0 then (!st.1, st.2)
               else (!st.1, !st.2))
            else st)).1 := ih (by omega) x y _
      _ = (absEnt k x y (hstep st (bitOf x k) (bitOf y k)).2).1 := by rw [← hst']

theorem hstep_bapp (st q : Bool × Bool) (a b : Nat) (ha : a < 2) (hb : b < 2) :
    hstep st (bapp q a b).1 (bapp q a b).2
      = ((hstep (pxor st q) a b).1, pxor (hstep (pxor st q) a b).2 q) := by
  rcases st with ⟨s, f⟩
  rcases q with ⟨s0, f0⟩
  interval_cases a <;> interval_cases b <;>
    cases s <;> cases f <;> cases s0 <;> cases f0 <;> decide

/-- Running the machine on a pre-transformed pair composes the transform into
the starting state; the final state carries the transform back out. -/
theorem equivAbs (k : Nat) : ∀ (K x y : Nat) (st q : Bool × Bool), k ≤ K →
    absEnt k (app K q x y).1 (app K q x y).2 st
      = ((absEnt k x y (pxor st q)).1, pxor (absEnt k x y (pxor st q)).2 q) := by
  induction k with
  | zero =>
    intro K x y st q _
    simp [absEnt, pxor_self_right]
  | succ k ih =>
    intro K x y st q hk
    rw [absEnt_succ, absEnt_succ]
    have hb := bitOf_app K k q x y (by omega)
    rw [hb.1, hb.2,
      hstep_bapp st q (bitOf x k) (bitOf y k) (bitOf_lt_two _ _) (bitOf_lt_two _ _)]
    dsimp only
    rw [ih K x y _ q (by omega), pxor_self_right]

/-! ### Hilbert: the tables -/

theorem entangleTable_absEnt (xb yb : Nat) (hxb : xb < 256) (hyb : yb < 256) :
    entangleTable (xb * 256 + yb) = (absEnt 8 xb yb (false, false)).1 := by
  have hidx1 : (xb * 256 + yb) / 256 % 256 = xb := by omega
  have hidx2 : (xb * 256 + yb) % 256 = yb := by omega
  have hX : xb * 2 ^ 24 < 2 ^ 32 := by omega
  have hY : yb * 2 ^ 24 + 2 ^ 23 < 2 ^ 32 := by omega
  have hbe : bit_entangle (xb * 2 ^ 24, yb * 2 ^ 24 + 2 ^ 23)
      = (absEnt 32 (xb * 2 ^ 24) (yb * 2 ^ 24 + 2 ^ 23) (false, false)).1 := by
    have happ : app 32 (false, false) (xb * 2 ^ 24) (yb * 2 ^ 24 + 2 ^ 23)
        = (xb * 2 ^ 24, yb * 2 ^ 24 + 2 ^ 23) := by
      rw [app_id, Nat.mod_eq_of_lt hX, Nat.mod_eq_of_lt hY]
    rw [bit_entangle, ← happ]
    exact corrEnt 32 le_rfl _ _ (false, false)
  have hsplit : absEnt 32 (xb * 2 ^ 24) (yb * 2 ^ 24 + 2 ^ 23) (false, false)
      = ((absEnt 8 (xb * 2 ^ 24 / 2 ^ 24) ((yb * 2 ^ 24 + 2 ^ 23) / 2 ^ 24) (false, false)).1 * 4 ^ 24
            + (absEnt 24 (xb * 2 ^ 24) (yb * 2 ^ 24 + 2 ^ 23)
                (absEnt 8 (xb * 2 ^ 24 / 2 ^ 24) ((yb * 2 ^ 24 + 2 ^ 23) / 2 ^ 24) (false, false)).2).1,
         (absEnt 24 (xb * 2 ^ 24) (yb * 2 ^ 24 + 2 ^ 23)
            (absEnt 8 (xb * 2 ^ 24 / 2 ^ 24) ((yb * 2 ^ 24 + 2 ^ 23) / 2 ^ 24) (false, false)).2).2) :=
    absEnt_split 8 24 (xb * 2 ^ 24) (yb * 2 ^ 24 + 2 ^ 23) (false, false)
  have hXd : xb * 2 ^ 24 / 2 ^ 24 = xb := by omega
  have hYd : (yb * 2 ^ 24 + 2 ^ 23) / 2 ^ 24 = yb := by omega
  rw [hXd, hYd] at hsplit
  have hfst : (absEnt 32 (xb * 2 ^ 24) (yb * 2 ^ 24 + 2 ^ 23) (false, false)).1
      = (absEnt 8 xb yb (false, false)).1 * 4 ^ 24
        + (absEnt 24 (xb * 2 ^ 24) (yb * 2 ^ 24 + 2 ^ 23) (absEnt 8 xb yb (false, false)).2).1 := by
    rw [hsplit]
  have hA := absEnt_fst_lt 8 xb yb (false, false)
  have hB := absEnt_fst_lt 24 (xb * 2 ^ 24) (yb * 2 ^ 24 + 2 ^ 23)
    (absEnt 8 xb yb (false, false)).2
  have e1 : (4 : Nat) ^ 24 = 2 ^ 48 := by norm_num
  have e2 : (4 : Nat) ^ 8 = 65536 := by norm_num
  rw [e1] at hfst
  rw [e1] at hB
  rw [e2] at hA
  rw [entangleTable, hidx1, hidx2, hbe, hfst]
  omega

theorem rotationTable_absEnt (xb yb : Nat) (hxb : xb < 256) (hyb : yb < 256) :
    rotationTable (xb * 256 + yb) = rotCode (absEnt 8 xb yb (false, false)).2 := by
  have hidx1 : (xb * 256 + yb) / 256 % 256 = xb := by omega
  have hidx2 : (xb * 256 + yb) % 256 = yb := by omega
  have hX : xb * 2 ^ 24 < 2 ^ 32 := by omega
  have hY : yb * 2 ^ 24 + 2 ^ 23 < 2 ^ 32 := by omega
  have hbe : bit_entangle (xb * 2 ^ 24, yb * 2 ^ 24 + 2 ^ 23)
      = (absEnt 32 (xb * 2 ^ 24) (yb * 2 ^ 24 + 2 ^ 23) (false, false)).1 := by
    have happ : app 32 (false, false) (xb * 2 ^ 24) (yb * 2 ^ 24 + 2 ^ 23)
        = (xb * 2 ^ 24, yb * 2 ^ 24 + 2 ^ 23) := by
      rw [app_id, Nat.mod_eq_of_lt hX, Nat.mod_eq_of_lt hY]
    rw [bit_entangle, ← happ]
    exact corrEnt 32 le_rfl _ _ (false, false)
  have hsplit : absEnt 32 (xb * 2 ^ 24) (yb * 2 ^ 24 + 2 ^ 23) (false, false)
      = ((absEnt 8 (xb * 2 ^ 24 / 2 ^ 24) ((yb * 2 ^ 24 + 2 ^ 23) / 2 ^ 24) (false, false)).1 * 4 ^ 24
            + (absEnt 24 (xb * 2 ^ 24) (yb * 2 ^ 24 + 2 ^ 23)
                (absEnt 8 (xb * 2 ^ 24 / 2 ^ 24) ((yb * 2 ^ 24 + 2 ^ 23) / 2 ^ 24) (false, false)).2).1,
         (absEnt 24 (xb * 2 ^ 24) (yb * 2 ^ 24 + 2 ^ 23)
            (absEnt 8 (xb * 2 ^ 24 / 2 ^ 24) ((yb * 2 ^ 24 + 2 ^ 23) / 2 ^ 24) (false, false)).2).2) :=
    absEnt_split 8 24 (xb * 2 ^ 24) (yb * 2 ^ 24 + 2 ^ 23) (false, false)
  have hXd : xb * 2 ^ 24 / 2 ^ 24 = xb := by omega
  have hYd : (yb * 2 ^ 24 + 2 ^ 23) / 2 ^ 24 = yb := by omega
  rw [hXd, hYd] at hsplit
  have hsplit2 : absEnt 24 (xb * 2 ^ 24) (yb * 2 ^ 24 + 2 ^ 23) (absEnt 8 xb yb (false, false)).2
      = ((absEnt 2 (xb * 2 ^ 24 / 2 ^ 22) ((yb * 2 ^ 24 + 2 ^ 23) / 2 ^ 22)
            (absEnt 8 xb yb (false, false)).2).1 * 4 ^ 22
            + (absEnt 22 (xb * 2 ^ 24) (yb * 2 ^ 24 + 2 ^ 23)
                (absEnt 2 (xb * 2 ^ 24 / 2 ^ 22) ((yb * 2 ^ 24 + 2 ^ 23) / 2 ^ 22)
                  (absEnt 8 xb yb (false, false)).2).2).1,
         (absEnt 22 (xb * 2 ^ 24) (yb * 2 ^ 24 + 2 ^ 23)
            (absEnt 2 (xb * 2 ^ 24 / 2 ^ 22) ((yb * 2 ^ 24 + 2 ^ 23) / 2 ^ 22)
              (absEnt 8 xb yb (false, false)).2).2).2) :=
    absEnt_split 2 22 (xb * 2 ^ 24) (yb * 2 ^ 24 + 2 ^ 23) (absEnt 8 xb yb (false, false)).2
  have hXd2 : xb * 2 ^ 24 / 2 ^ 22 = xb * 4 := by omega
  have hYd2 : (yb * 2 ^ 24 + 2 ^ 23) / 2 ^ 22 = yb * 4 + 2 := by omega
  rw [hXd2, hYd2] at hsplit2
  have hmod2 : absEnt 2 (xb * 4) (yb * 4 + 2) (absEnt 8 xb yb (false, false)).2
      = absEnt 2 0 2 (absEnt 8 xb yb (false, false)).2 := by
    have h1 := absEnt_mod 2 2 (xb * 4) (yb * 4 + 2) (absEnt 8 xb yb (false, false)).2 le_rfl
    have m1 : xb * 4 % 2 ^ 2 = 0 := by omega
    have m2 : (yb * 4 + 2) % 2 ^ 2 = 2 := by omega
    rw [m1, m2] at h1
    exact h1.symm
  rw [hmod2] at hsplit2
  have hfst : (absEnt 32 (xb * 2 ^ 24) (yb * 2 ^ 24 + 2 ^ 23) (false, false)).1
      = (absEnt 8 xb yb (false, false)).1 * 4 ^ 24
        + ((absEnt 2 0 2 (absEnt 8 xb yb (false, false)).2).1 * 4 ^ 22
            + (absEnt 22 (xb * 2 ^ 24) (yb * 2 ^ 24 + 2 ^ 23)
                (absEnt 2 0 2 (absEnt 8 xb yb (false, false)).2).2).1) := by
    rw [hsplit]
    dsimp only
    rw [hsplit2]
  have hA := absEnt_fst_lt 8 xb yb (false, false)
  have hC := absEnt_fst_lt 2 0 2 (absEnt 8 xb yb (false, false)).2
  have hD := absEnt_fst_lt 22 (xb * 2 ^ 24) (yb * 2 ^ 24 + 2 ^ 23)
    (absEnt 2 0 2 (absEnt 8 xb yb (false, false)).2).2
  have e1 : (4 : Nat) ^ 24 = 2 ^ 48 := by norm_num
  have e2 : (4 : Nat) ^ 22 = 2 ^ 44 := by norm_num
  have e3 : (4 : Nat) ^ 2 = 16 := by norm_num
  have e4 : (4 : Nat) ^ 8 = 65536 := by norm_num
  rw [e1, e2] at hfst
  rw [e2] at hD
  rw [e3] at hC
  rw [e4] at hA
  rw [rotationTable, hidx1, hidx2, hbe, hfst, rotCode]
  omega

theorem entangleTable_entLoop (xb yb : Nat) (hxb : xb < 256) (hyb : yb < 256) :
    entangleTable (xb * 256 + yb) = entLoop 8 (xb, yb) := by
  rw [entangleTable_absEnt xb yb hxb hyb, ← corrEnt 8 (by omega) xb yb (false, false), app_id]
  have h8 : (2 : Nat) ^ 8 = 256 := by norm_num
  rw [h8, Nat.mod_eq_of_lt hxb, Nat.mod_eq_of_lt hyb]

theorem entangleTable_injective (i1 i2 : Nat) (h1 : i1 < 65536) (h2 : i2 < 65536)
    (he : entangleTable i1 = entangleTable i2) : i1 = i2 := by
  have d1 : i1 = (i1 / 256) * 256 + i1 % 256 := by omega
  have d2 : i2 = (i2 / 256) * 256 + i2 % 256 := by omega
  rw [d1, entangleTable_entLoop _ _ (by omega) (by omega),
      d2, entangleTable_entLoop _ _ (by omega) (by omega)] at he
  have hd := congrArg (detLoop 8) he
  rw [detLoop_entLoop 8 (by omega) (i1 / 256) (i1 % 256),
      detLoop_entLoop 8 (by omega) (i2 / 256) (i2 % 256)] at hd
  have e1 := congrArg Prod.fst hd
  have e2 := congrArg Prod.snd hd
  dsimp only at e1 e2
  have hp : (2 : Nat) ^ 8 = 256 := by norm_num
  rw [hp] at e1 e2
  omega

theorem detangleTable_detLoop (z : Nat) (hz : z < 65536) :
    detangleTable z = detLoop 8 z := by
  have ha := (detLoop_lt 8 (by omega) z).1
  have hb := (detLoop_lt 8 (by omega) z).2
  have hp : (2 : Nat) ^ 8 = 256 := by norm_num
  rw [hp] at ha hb
  have h48 : (4 : Nat) ^ 8 = 65536 := by norm_num
  have hent : entLoop 8 (detLoop 8 z) = z :=
    entLoop_detLoop 8 (by omega) z (by rw [h48]; exact hz)
  have hj : (detLoop 8 z).1 * 256 + (detLoop 8 z).2 < 65536 := by omega
  have hkey : entangleTable ((detLoop 8 z).1 * 256 + (detLoop 8 z).2) = z := by
    rw [entangleTable_entLoop _ _ (by omega) (by omega)]
    exact hent
  have hlook := buildTab_lookup entangleTable entangleTable_injective 65536
    ((detLoop 8 z).1 * 256 + (detLoop 8 z).2) hj le_rfl
  rw [hkey] at hlook
  rw [detangleTable, hlook]
  have e1 : ((detLoop 8 z).1 * 256 + (detLoop 8 z).2) / 256 % 256 = (detLoop 8 z).1 := by omega
  have e2 : ((detLoop 8 z).1 * 256 + (detLoop 8 z).2) % 256 = (detLoop 8 z).2 := by omega
  rw [e1, e2]

theorem detangleTable_chunkH (t s : Nat) :
    detangleTable (t / 2 ^ s % 65536) = detLoop 8 (t / 2 ^ s) := by
  rw [detangleTable_detLoop _ (Nat.mod_lt _ (by norm_num))]
  have h : (65536 : Nat) = 2 ^ 16 := by norm_num
  rw [h, detLoop_mod 8 16 _ (by omega)]

theorem rotCode_vals :
    rotCode (false, false) = 4 ∧ rotCode (true, false) = 14
      ∧ rotCode (false, true) = 12 ∧ rotCode (true, true) = 6 := by decide

theorem rotCode_swap (st : Bool × Bool) : (0 < rotCode st &&& 2) ↔ st.1 = true := by
  rcases st with ⟨s, f⟩
  cases s <;> cases f <;> decide

theorem rotCode_flip (st : Bool × Bool) : (rotCode st = 12 ∨ rotCode st = 6) ↔ st.2 = true := by
  rcases st with ⟨s, f⟩
  cases s <;> cases f <;> decide

/-! ### Hilbert: byte-at-a-time fast path equals the bit reference -/

theorem pxor_id_left (a : Bool × Bool) : pxor (false, false) a = a := by
  rcases a with ⟨a1, a2⟩
  cases a1 <;> cases a2 <;> rfl

theorem pxor_cancel (a b : Bool × Bool) : pxor a (pxor b a) = b := by
  rcases a with ⟨a1, a2⟩
  rcases b with ⟨b1, b2⟩
  cases a1 <;> cases a2 <;> cases b1 <;> cases b2 <;> rfl

theorem pxor_cancel_left (a b : Bool × Bool) : pxor a (pxor a b) = b := by
  rcases a with ⟨a1, a2⟩
  rcases b with ⟨b1, b2⟩
  cases a1 <;> cases a2 <;> cases b1 <;> cases b2 <;> rfl

/-- Applying a second Klein transform composes by componentwise xor. -/
theorem app_comp (k : Nat) (q st : Bool × Bool) (x y : Nat) :
    app k q (app k st x y).1 (app k st x y).2 = app k (pxor st q) x y := by
  rcases st with ⟨s1, f1⟩
  rcases q with ⟨s2, f2⟩
  have m1 : ∀ u : Nat, u % 2 ^ k % 2 ^ k = u % 2 ^ k := fun u =>
    Nat.mod_eq_of_lt (Nat.mod_lt _ (pow2_pos k))
  have m2 : ∀ u : Nat, (2 ^ k - 1 - u % 2 ^ k) % 2 ^ k = 2 ^ k - 1 - u % 2 ^ k := by
    intro u
    apply Nat.mod_eq_of_lt
    have h := Nat.mod_lt u (pow2_pos k)
    have hp := pow2_pos k
    omega
  have m3 : ∀ u : Nat, 2 ^ k - 1 - (2 ^ k - 1 - u % 2 ^ k) = u % 2 ^ k := by
    intro u
    have h := Nat.mod_lt u (pow2_pos k)
    have hp := pow2_pos k
    omega
  cases s1 <;> cases f1 <;> cases s2 <;> cases f2 <;> simp [app, pxor, m1, m2, m3]

/-- A middle chunk of the all-ones complement is the complemented chunk. -/
theorem comp_chunk (K j w v : Nat) (h : j + w ≤ K) (hv : v < 2 ^ K) :
    (2 ^ K - 1 - v) / 2 ^ j % 2 ^ w = 2 ^ w - 1 - v / 2 ^ j % 2 ^ w := by
  have hs1 : (2 : Nat) ^ K = 2 ^ j * 2 ^ (K - j) := by
    rw [← pow_add]; congr 1; omega
  have h1 := (chunkdec (2 ^ j) (2 ^ (K - j)) v (pow2_pos j) (by rw [← hs1]; exact hv)).2
  rw [← hs1] at h1
  rw [h1]
  have hw : v / 2 ^ j < 2 ^ (K - j) := Nat.div_lt_of_lt_mul (by rw [← hs1]; exact hv)
  have hs2 : (2 : Nat) ^ (K - j) = 2 ^ w * 2 ^ (K - j - w) := by
    rw [← pow_add]; congr 1; omega
  have h2 := (chunkdec (2 ^ w) (2 ^ (K - j - w)) (v / 2 ^ j) (pow2_pos w) (by rw [← hs2]; exact hw)).1
  rw [← hs2] at h2
  exact h2

/-- Decomposing the all-ones complement of the low `k + w` bits into the low
`k` bits and the next `w` bits. -/
theorem comp_decomp (k w : Nat) (v : Nat) :
    2 ^ (k + w) - 1 - v % 2 ^ (k + w)
      = 2 ^ k - 1 - v % 2 ^ k + (2 ^ w - 1 - v / 2 ^ k % 2 ^ w) * 2 ^ k := by
  have hkw : (2 : Nat) ^ (k + w) = 2 ^ k * 2 ^ w := pow_add 2 k w
  have hv : v % 2 ^ (k + w) < 2 ^ k * 2 ^ w := by
    rw [← hkw]; exact Nat.mod_lt _ (pow2_pos _)
  have h := chunkdec (2 ^ k) (2 ^ w) (v % 2 ^ (k + w)) (pow2_pos k) hv
  rw [← hkw] at h
  have hm : v % 2 ^ (k + w) % 2 ^ k = v % 2 ^ k :=
    Nat.mod_mod_of_dvd v (pow_dvd_pow 2 (by omega))
  have hd : v % 2 ^ (k + w) / 2 ^ k = v / 2 ^ k % 2 ^ w := by
    rw [hkw, Nat.mod_mul_right_div_self]
  rw [hm] at h
  rw [hd] at h
  rw [(Nat.div_add_mod (2 ^ (k + w) - 1 - v % 2 ^ (k + w)) (2 ^ k)).symm]
  rw [h.1, h.2]
  ring

/-- The transform of a `k + w`-bit pair splits at bit `k`. -/
theorem app_glue (k w : Nat) (st : Bool × Bool) (x y : Nat) :
    app (k + w) st x y
      = ((app k st x y).1 + (app w st (x / 2 ^ k) (y / 2 ^ k)).1 * 2 ^ k,
         (app k st x y).2 + (app w st (x / 2 ^ k) (y / 2 ^ k)).2 * 2 ^ k) := by
  have c0 : ∀ u : Nat, u % 2 ^ (k + w) = u % 2 ^ k + u / 2 ^ k % 2 ^ w * 2 ^ k := by
    intro u
    rw [mod_split k w u]
    ring
  have c1 : ∀ u : Nat, 2 ^ (k + w) - 1 - u % 2 ^ (k + w)
      = 2 ^ k - 1 - u % 2 ^ k + (2 ^ w - 1 - u / 2 ^ k % 2 ^ w) * 2 ^ k := comp_decomp k w
  rcases st with ⟨s, f⟩
  cases s <;> cases f
  · simp [app, c0]
  · simp [app, c1]
  · simp [app, c0]
  · simp [app, c1]

/-- Byte `m` of a transformed 32-bit pair is the transformed byte. -/
theorem app_byte (m : Nat) (st : Bool × Bool) (x y : Nat) (hm : 8 * m + 8 ≤ 32) :
    ((app 32 st x y).1 / 2 ^ (8 * m) % 256, (app 32 st x y).2 / 2 ^ (8 * m) % 256)
      = app 8 st (x / 2 ^ (8 * m)) (y / 2 ^ (8 * m)) := by
  have hcm : ∀ u : Nat, u % 4294967296 / 2 ^ (8 * m) % 256 = u / 2 ^ (8 * m) % 256 := by
    intro u
    have h := chunk_mod (8 * m) 8 32 u hm
    norm_num at h
    exact h
  have hcc : ∀ u : Nat, (4294967295 - u % 4294967296) / 2 ^ (8 * m) % 256
      = 255 - u / 2 ^ (8 * m) % 256 := by
    intro u
    have h := comp_chunk 32 (8 * m) 8 (u % 2 ^ 32) hm (Nat.mod_lt _ (by norm_num))
    norm_num at h
    rw [h, hcm]
  rcases st with ⟨s, f⟩
  cases s <;> cases f <;> simp [app, hcm, hcc]

/-- The byte-loop transform of `<Hilbert as Tangle>::entangle`, as the Klein
transform at width 32. -/
theorem entStepApp (q : Bool × Bool) (X Y : Nat) (hX : X < 2 ^ 32) (hY : Y < 2 ^ 32) :
    ((if q.2 = true then 4294967295 - (if q.1 = true then Y else X) else (if q.1 = true then Y else X)),
     (if q.2 = true then 4294967295 - (if q.1 = true then X else Y) else (if q.1 = true then X else Y)))
      = app 32 q X Y := by
  rcases q with ⟨s, f⟩
  cases s <;> cases f <;> simp [app, Nat.mod_eq_of_lt hX, Nat.mod_eq_of_lt hY] <;> omega

/-- The byte-loop transform of `<Hilbert as Tangle>::detangle` (flip, then
swap), as the Klein transform at width `k`. -/
theorem detStepApp (k : Nat) (q : Bool × Bool) (u v : Nat) (hu : u < 2 ^ k) (hv : v < 2 ^ k) :
    ((if q.1 = true then (if q.2 = true then 2 ^ k - v - 1 else v) else (if q.2 = true then 2 ^ k - u - 1 else u)),
     (if q.1 = true then (if q.2 = true then 2 ^ k - u - 1 else u) else (if q.2 = true then 2 ^ k - v - 1 else v)))
      = app k q u v := by
  have hp := pow2_pos k
  rcases q with ⟨s, f⟩
  cases s <;> cases f <;>
    simp [app, Nat.mod_eq_of_lt hu, Nat.mod_eq_of_lt hv] <;> omega

/-- The entangle table at a transformed byte-pair index yields the machine's
next 16 output bits. -/
theorem entTab_of_app (A B : Nat) (st : Bool × Bool) :
    entangleTable ((app 8 st A B).1 * 256 + (app 8 st A B).2) = (absEnt 8 A B st).1 := by
  have h1 : (app 8 st A B).1 < 256 := by
    have := (app_le 8 st A B).1
    omega
  have h2 : (app 8 st A B).2 < 256 := by
    have := (app_le 8 st A B).2
    omega
  rw [entangleTable_absEnt _ _ h1 h2, equivAbs 8 8 A B (false, false) st le_rfl]
  dsimp only
  rw [pxor_id_left]

/-- The rotation table at a transformed byte-pair index decodes to the updated
state xored with the incoming transform. -/
theorem rotTab_of_app (A B : Nat) (st : Bool × Bool) :
    rotationTable ((app 8 st A B).1 * 256 + (app 8 st A B).2)
      = rotCode (pxor (absEnt 8 A B st).2 st) := by
  have h1 : (app 8 st A B).1 < 256 := by
    have := (app_le 8 st A B).1
    omega
  have h2 : (app 8 st A B).2 < 256 := by
    have := (app_le 8 st A B).2
    omega
  rw [rotationTable_absEnt _ _ h1 h2, equivAbs 8 8 A B (false, false) st le_rfl]
  dsimp only
  rw [pxor_id_left]

/-- The detangle table inverts the machine's 16-bit output chunk back to the
transformed byte pair. -/
theorem detTab_of_absEnt (A B : Nat) (st : Bool × Bool) :
    detangleTable ((absEnt 8 A B st).1) = app 8 st A B := by
  rw [← corrEnt 8 (by omega) A B st]
  have hlt : entLoop 8 (app 8 st A B) < 65536 := by
    have := entLoop_lt 8 (app 8 st A B)
    norm_num at this
    exact this
  rw [detangleTable_detLoop _ hlt]
  rw [show app 8 st A B = ((app 8 st A B).1, (app 8 st A B).2) from rfl]
  rw [detLoop_entLoop 8 (by omega) (app 8 st A B).1 (app 8 st A B).2]
  rw [app_mod 8 8 st A B le_rfl]

theorem entangleAux_zeroEq (tE tR : Nat → Nat) (x y res : Nat) :
    entangleAux tE tR 0 x y res = res := rfl

/-- One unfolding of the byte loop of `<Hilbert as Tangle>::entangle`, stated
over opaque tables. -/
theorem entangleAux_succEq (tE tR : Nat → Nat) (m x y res : Nat) :
    entangleAux tE tR (m + 1) x y res
      = entangleAux tE tR m
          (if tR ((x / 2 ^ (8 * m) % 256) * 256 + y / 2 ^ (8 * m) % 256) = 12
              ∨ tR ((x / 2 ^ (8 * m) % 256) * 256 + y / 2 ^ (8 * m) % 256) = 6
            then 4294967295
              - (if 0 < tR ((x / 2 ^ (8 * m) % 256) * 256 + y / 2 ^ (8 * m) % 256) &&& 2
                  then y else x)
            else (if 0 < tR ((x / 2 ^ (8 * m) % 256) * 256 + y / 2 ^ (8 * m) % 256) &&& 2
                  then y else x))
          (if tR ((x / 2 ^ (8 * m) % 256) * 256 + y / 2 ^ (8 * m) % 256) = 12
              ∨ tR ((x / 2 ^ (8 * m) % 256) * 256 + y / 2 ^ (8 * m) % 256) = 6
            then 4294967295
              - (if 0 < tR ((x / 2 ^ (8 * m) % 256) * 256 + y / 2 ^ (8 * m) % 256) &&& 2
                  then x else y)
            else (if 0 < tR ((x / 2 ^ (8 * m) % 256) * 256 + y / 2 ^ (8 * m) % 256) &&& 2
                  then x else y))
          (res * 2 ^ 16 + tE ((x / 2 ^ (8 * m) % 256) * 256 + y / 2 ^ (8 * m) % 256)) := by
  simp only [entangleAux]

theorem detangleAux_zeroEq (tD : Nat → Nat × Nat) (tR : Nat → Nat) (tangle : Nat) :
    detangleAux tD tR 0 tangle = (0, 0) := rfl

/-- One unfolding of the byte loop of `<Hilbert as Tangle>::detangle`, stated
over opaque tables. -/
theorem detangleAux_succEq (tD : Nat → Nat × Nat) (tR : Nat → Nat) (m tangle : Nat) :
    detangleAux tD tR (m + 1) tangle
      = ((if 0 < tR ((tD (tangle / 2 ^ (16 * m) % 65536)).1 * 256
                + (tD (tangle / 2 ^ (16 * m) % 65536)).2) &&& 2
            then (if tR ((tD (tangle / 2 ^ (16 * m) % 65536)).1 * 256
                    + (tD (tangle / 2 ^ (16 * m) % 65536)).2) = 12
                  ∨ tR ((tD (tangle / 2 ^ (16 * m) % 65536)).1 * 256
                    + (tD (tangle / 2 ^ (16 * m) % 65536)).2) = 6
                then 2 ^ (8 * m) - (detangleAux tD tR m tangle).2 - 1
                else (detangleAux tD tR m tangle).2)
            else (if tR ((tD (tangle / 2 ^ (16 * m) % 65536)).1 * 256
                    + (tD (tangle / 2 ^ (16 * m) % 65536)).2) = 12
                  ∨ tR ((tD (tangle / 2 ^ (16 * m) % 65536)).1 * 256
                    + (tD (tangle / 2 ^ (16 * m) % 65536)).2) = 6
                then 2 ^ (8 * m) - (detangleAux tD tR m tangle).1 - 1
                else (detangleAux tD tR m tangle).1))
          + (tD (tangle / 2 ^ (16 * m) % 65536)).1 * 2 ^ (8 * m),
         (if 0 < tR ((tD (tangle / 2 ^ (16 * m) % 65536)).1 * 256
                + (tD (tangle / 2 ^ (16 * m) % 65536)).2) &&& 2
            then (if tR ((tD (tangle / 2 ^ (16 * m) % 65536)).1 * 256
                    + (tD (tangle / 2 ^ (16 * m) % 65536)).2) = 12
                  ∨ tR ((tD (tangle / 2 ^ (16 * m) % 65536)).1 * 256
                    + (tD (tangle / 2 ^ (16 * m) % 65536)).2) = 6
                then 2 ^ (8 * m) - (detangleAux tD tR m tangle).1 - 1
                else (detangleAux tD tR m tangle).1)
            else (if tR ((tD (tangle / 2 ^ (16 * m) % 65536)).1 * 256
                    + (tD (tangle / 2 ^ (16 * m) % 65536)).2) = 12
                  ∨ tR ((tD (tangle / 2 ^ (16 * m) % 65536)).1 * 256
                    + (tD (tangle / 2 ^ (16 * m) % 65536)).2) = 6
                then 2 ^ (8 * m) - (detangleAux tD tR m tangle).2 - 1
                else (detangleAux tD tR m tangle).2))
          + (tD (tangle / 2 ^ (16 * m) % 65536)).2 * 2 ^ (8 * m)) := by
  simp only [detangleAux]

/-- Correctness of the byte loop of `<Hilbert as Tangle>::entangle`: fed a
pair pre-transformed by the machine state `st`, it appends the machine's
output for the remaining `8 * m` bits. -/
theorem entangleAux_corr (m : Nat) : ∀ (st : Bool × Bool) (x y res : Nat), m ≤ 4 →
    x < 2 ^ 32 → y < 2 ^ 32 →
    entangleAux entangleTable rotationTable m (app 32 st x y).1 (app 32 st x y).2 res
      = res * 2 ^ (16 * m) + (absEnt (8 * m) x y st).1 := by
  induction m with
  | zero =>
    intro st x y res _ _ _
    rw [entangleAux_zeroEq]
    simp [absEnt]
  | succ m ih =>
    intro st x y res hm hx hy
    rw [entangleAux_succEq]
    have hbyte := app_byte m st x y (by omega)
    have hb1 := congrArg Prod.fst hbyte
    have hb2 := congrArg Prod.snd hbyte
    dsimp only at hb1 hb2
    rw [hb1, hb2]
    rw [entTab_of_app (x / 2 ^ (8 * m)) (y / 2 ^ (8 * m)) st]
    rw [rotTab_of_app (x / 2 ^ (8 * m)) (y / 2 ^ (8 * m)) st]
    simp only [rotCode_swap, rotCode_flip]
    have hX : (app 32 st x y).1 < 2 ^ 32 := by
      have := (app_le 32 st x y).1
      omega
    have hY : (app 32 st x y).2 < 2 ^ 32 := by
      have := (app_le 32 st x y).2
      omega
    have hstep := entStepApp (pxor (absEnt 8 (x / 2 ^ (8 * m)) (y / 2 ^ (8 * m)) st).2 st)
      (app 32 st x y).1 (app 32 st x y).2 hX hY
    have hs1 := congrArg Prod.fst hstep
    have hs2 := congrArg Prod.snd hstep
    dsimp only at hs1 hs2
    rw [hs1, hs2]
    rw [app_comp 32 (pxor (absEnt 8 (x / 2 ^ (8 * m)) (y / 2 ^ (8 * m)) st).2 st) st x y]
    rw [pxor_cancel]
    rw [ih ((absEnt 8 (x / 2 ^ (8 * m)) (y / 2 ^ (8 * m)) st).2) x y
      (res * 2 ^ 16 + (absEnt 8 (x / 2 ^ (8 * m)) (y / 2 ^ (8 * m)) st).1) (by omega) hx hy]
    rw [show 8 * (m + 1) = 8 + 8 * m from by ring]
    rw [absEnt_split 8 (8 * m) x y st]
    dsimp only
    rw [show (4 : Nat) ^ (8 * m) = 2 ^ (16 * m) from by
      rw [← two_pow_two_mul, show 2 * (8 * m) = 16 * m from by ring]]
    rw [show (2 : Nat) ^ (16 * (m + 1)) = 2 ^ 16 * 2 ^ (16 * m) from by
      rw [show 16 * (m + 1) = 16 + 16 * m from by ring, pow_add]]
    ring

/-- The state after the top `32 - 8 * m` bits extends by one more byte. -/
theorem tau_step (m x y : Nat) (hm : m + 1 ≤ 4) :
    (absEnt (32 - 8 * m) (x / 2 ^ (8 * m)) (y / 2 ^ (8 * m)) (false, false)).2
      = (absEnt 8 (x / 2 ^ (8 * m)) (y / 2 ^ (8 * m))
          (absEnt (32 - 8 * (m + 1)) (x / 2 ^ (8 * (m + 1))) (y / 2 ^ (8 * (m + 1)))
            (false, false)).2).2 := by
  have hidx : 32 - 8 * m = 32 - 8 * (m + 1) + 8 := by omega
  rw [hidx]
  rw [absEnt_split (32 - 8 * (m + 1)) 8 (x / 2 ^ (8 * m)) (y / 2 ^ (8 * m)) (false, false)]
  dsimp only
  have hdd : ∀ u : Nat, u / 2 ^ (8 * m) / 2 ^ 8 = u / 2 ^ (8 * (m + 1)) := by
    intro u
    rw [Nat.div_div_eq_div_mul, ← pow_add, show 8 * m + 8 = 8 * (m + 1) from by ring]
  rw [hdd x, hdd y]

/-- The 16-bit chunk of the machine's full output at offset `16 * m` is the
output chunk for byte `m`. -/
theorem chunk_of_absEnt32 (m x y : Nat) (hm : m + 1 ≤ 4) :
    (absEnt 32 x y (false, false)).1 / 2 ^ (16 * m) % 65536
      = (absEnt 8 (x / 2 ^ (8 * m)) (y / 2 ^ (8 * m))
          (absEnt (32 - 8 * (m + 1)) (x / 2 ^ (8 * (m + 1))) (y / 2 ^ (8 * (m + 1)))
            (false, false)).2).1 := by
  have hsp := absEnt_split (32 - 8 * (m + 1)) (8 * (m + 1)) x y (false, false)
  rw [show 32 - 8 * (m + 1) + 8 * (m + 1) = 32 from by omega] at hsp
  have hsp2 := absEnt_split 8 (8 * m) x y
    (absEnt (32 - 8 * (m + 1)) (x / 2 ^ (8 * (m + 1))) (y / 2 ^ (8 * (m + 1))) (false, false)).2
  rw [show 8 + 8 * m = 8 * (m + 1) from by ring] at hsp2
  rw [hsp2] at hsp
  dsimp only at hsp
  rw [hsp]
  dsimp only
  have e1 : (4 : Nat) ^ (8 * (m + 1)) = 2 ^ (16 * m) * 65536 := by
    rw [← two_pow_two_mul, show 2 * (8 * (m + 1)) = 16 * m + 16 from by ring, pow_add]
    norm_num
  have e2 : (4 : Nat) ^ (8 * m) = 2 ^ (16 * m) := by
    rw [← two_pow_two_mul, show 2 * (8 * m) = 16 * m from by ring]
  have hW : (absEnt 8 (x / 2 ^ (8 * m)) (y / 2 ^ (8 * m))
      (absEnt (32 - 8 * (m + 1)) (x / 2 ^ (8 * (m + 1))) (y / 2 ^ (8 * (m + 1)))
        (false, false)).2).1 < 65536 := by
    have := absEnt_fst_lt 8 (x / 2 ^ (8 * m)) (y / 2 ^ (8 * m))
      (absEnt (32 - 8 * (m + 1)) (x / 2 ^ (8 * (m + 1))) (y / 2 ^ (8 * (m + 1)))
        (false, false)).2
    norm_num at this
    exact this
  have hL : (absEnt (8 * m) x y
      (absEnt 8 (x / 2 ^ (8 * m)) (y / 2 ^ (8 * m))
        (absEnt (32 - 8 * (m + 1)) (x / 2 ^ (8 * (m + 1))) (y / 2 ^ (8 * (m + 1)))
          (false, false)).2).2).1 < 2 ^ (16 * m) := by
    have := absEnt_fst_lt (8 * m) x y
      (absEnt 8 (x / 2 ^ (8 * m)) (y / 2 ^ (8 * m))
        (absEnt (32 - 8 * (m + 1)) (x / 2 ^ (8 * (m + 1))) (y / 2 ^ (8 * (m + 1)))
          (false, false)).2).2
    rw [e2] at this
    exact this
  rw [e1, e2]
  generalize hVg : (absEnt (32 - 8 * (m + 1)) (x / 2 ^ (8 * (m + 1))) (y / 2 ^ (8 * (m + 1)))
      (false, false)).1 = V at *
  generalize hWg : (absEnt 8 (x / 2 ^ (8 * m)) (y / 2 ^ (8 * m))
      (absEnt (32 - 8 * (m + 1)) (x / 2 ^ (8 * (m + 1))) (y / 2 ^ (8 * (m + 1)))
        (false, false)).2).1 = W at *
  generalize hLg : (absEnt (8 * m) x y
      (absEnt 8 (x / 2 ^ (8 * m)) (y / 2 ^ (8 * m))
        (absEnt (32 - 8 * (m + 1)) (x / 2 ^ (8 * (m + 1))) (y / 2 ^ (8 * (m + 1)))
          (false, false)).2).2).1 = L at *
  rw [show V * (2 ^ (16 * m) * 65536) + (W * 2 ^ (16 * m) + L)
        = 2 ^ (16 * m) * (V * 65536 + W) + L from by ring]
  rw [Nat.mul_add_div (pow2_pos _), Nat.div_eq_of_lt hL, Nat.add_zero]
  rw [show V * 65536 + W = 65536 * V + W from by ring, Nat.mul_add_mod, Nat.mod_eq_of_lt hW]

/-- Correctness of the byte loop of `<Hilbert as Tangle>::detangle`: after `m`
byte rounds it has recovered the low `8 * m` bits of the pair, transformed by
the machine state that the top `32 - 8 * m` bits leave behind. -/
theorem detangleAux_corr (m : Nat) : ∀ (x y : Nat), m ≤ 4 →
    detangleAux detangleTable rotationTable m (absEnt 32 x y (false, false)).1
      = app (8 * m) (absEnt (32 - 8 * m) (x / 2 ^ (8 * m)) (y / 2 ^ (8 * m)) (false, false)).2 x y := by
  induction m with
  | zero =>
    intro x y _
    have happ0 : ∀ st : Bool × Bool, app 0 st x y = (0, 0) := by
      intro st
      rcases st with ⟨s, f⟩
      cases s <;> cases f <;> simp [app, Nat.mod_one]
    rw [show detangleAux detangleTable rotationTable 0 (absEnt 32 x y (false, false)).1
          = (0, 0) from rfl, happ0]
  | succ m ih =>
    intro x y hm
    rw [detangleAux_succEq]
    rw [ih x y (by omega)]
    rw [chunk_of_absEnt32 m x y hm]
    rw [detTab_of_absEnt (x / 2 ^ (8 * m)) (y / 2 ^ (8 * m))
      (absEnt (32 - 8 * (m + 1)) (x / 2 ^ (8 * (m + 1))) (y / 2 ^ (8 * (m + 1)))
        (false, false)).2]
    rw [rotTab_of_app (x / 2 ^ (8 * m)) (y / 2 ^ (8 * m))
      (absEnt (32 - 8 * (m + 1)) (x / 2 ^ (8 * (m + 1))) (y / 2 ^ (8 * (m + 1)))
        (false, false)).2]
    rw [← tau_step m x y hm]
    simp only [rotCode_swap, rotCode_flip]
    have hu : (app (8 * m)
        (absEnt (32 - 8 * m) (x / 2 ^ (8 * m)) (y / 2 ^ (8 * m)) (false, false)).2 x y).1
          < 2 ^ (8 * m) := by
      have := (app_le (8 * m)
        (absEnt (32 - 8 * m) (x / 2 ^ (8 * m)) (y / 2 ^ (8 * m)) (false, false)).2 x y).1
      have hp := pow2_pos (8 * m)
      omega
    have hv : (app (8 * m)
        (absEnt (32 - 8 * m) (x / 2 ^ (8 * m)) (y / 2 ^ (8 * m)) (false, false)).2 x y).2
          < 2 ^ (8 * m) := by
      have := (app_le (8 * m)
        (absEnt (32 - 8 * m) (x / 2 ^ (8 * m)) (y / 2 ^ (8 * m)) (false, false)).2 x y).2
      have hp := pow2_pos (8 * m)
      omega
    have hstep := detStepApp (8 * m)
      (pxor (absEnt (32 - 8 * m) (x / 2 ^ (8 * m)) (y / 2 ^ (8 * m)) (false, false)).2
        (absEnt (32 - 8 * (m + 1)) (x / 2 ^ (8 * (m + 1))) (y / 2 ^ (8 * (m + 1)))
          (false, false)).2)
      (app (8 * m)
        (absEnt (32 - 8 * m) (x / 2 ^ (8 * m)) (y / 2 ^ (8 * m)) (false, false)).2 x y).1
      (app (8 * m)
        (absEnt (32 - 8 * m) (x / 2 ^ (8 * m)) (y / 2 ^ (8 * m)) (false, false)).2 x y).2
      hu hv
    have hs1 := congrArg Prod.fst hstep
    have hs2 := congrArg Prod.snd hstep
    dsimp only at hs1 hs2
    rw [hs1, hs2]
    rw [app_comp (8 * m)
      (pxor (absEnt (32 - 8 * m) (x / 2 ^ (8 * m)) (y / 2 ^ (8 * m)) (false, false)).2
        (absEnt (32 - 8 * (m + 1)) (x / 2 ^ (8 * (m + 1))) (y / 2 ^ (8 * (m + 1)))
          (false, false)).2)
      (absEnt (32 - 8 * m) (x / 2 ^ (8 * m)) (y / 2 ^ (8 * m)) (false, false)).2 x y]
    rw [pxor_cancel_left]
    have hglue := app_glue (8 * m) 8
      (absEnt (32 - 8 * (m + 1)) (x / 2 ^ (8 * (m + 1))) (y / 2 ^ (8 * (m + 1)))
        (false, false)).2 x y
    rw [show 8 * m + 8 = 8 * (m + 1) from by ring] at hglue
    rw [← hglue]

/-- The byte-at-a-time entangle agrees with the bit reference. -/
theorem hilbert_ent_corr (x y : Nat) (hx : x < 2 ^ 32) (hy : y < 2 ^ 32) :
    entangle x y = bit_entangle (x, y) := by
  have h := entangleAux_corr 4 (false, false) x y 0 (by omega) hx hy
  rw [app_id] at h
  dsimp only at h
  rw [Nat.mod_eq_of_lt hx, Nat.mod_eq_of_lt hy] at h
  norm_num at h
  show entangleAux entangleTable rotationTable 4 x y 0 = entLoop 32 (x, y)
  rw [h, ← corrEnt 32 le_rfl x y (false, false), app_id,
    Nat.mod_eq_of_lt hx, Nat.mod_eq_of_lt hy]

/-- Round trip of the byte-at-a-time pair of fast paths. -/
theorem hilbert_rt (x y : Nat) (hx : x < 2 ^ 32) (hy : y < 2 ^ 32) :
    detangle (entangle x y) = (x, y) := by
  have he : entangle x y = (absEnt 32 x y (false, false)).1 := by
    rw [hilbert_ent_corr x y hx hy]
    show entLoop 32 (x, y) = _
    rw [← corrEnt 32 le_rfl x y (false, false), app_id,
      Nat.mod_eq_of_lt hx, Nat.mod_eq_of_lt hy]
  have hd : detangleAux detangleTable rotationTable 4 (absEnt 32 x y (false, false)).1
      = app 32 (absEnt 0 (x / 2 ^ 32) (y / 2 ^ 32) (false, false)).2 x y :=
    detangleAux_corr 4 x y (by omega)
  have h0 : (absEnt 0 (x / 2 ^ 32) (y / 2 ^ 32) (false, false)).2 = (false, false) := rfl
  rw [he]
  show detangleAux detangleTable rotationTable 4 (absEnt 32 x y (false, false)).1 = (x, y)
  rw [hd, h0, app_id, Nat.mod_eq_of_lt hx, Nat.mod_eq_of_lt hy]

/-- The byte-at-a-time detangle agrees with the bit reference, and entangle
inverts detangle. -/
theorem hilbert_det_corr (t : Nat) (ht : t < 2 ^ 64) :
    detangle t = bit_detangle t ∧ entangle (bit_detangle t).1 (bit_detangle t).2 = t := by
  have hx := (detLoop_lt 32 le_rfl t).1
  have hy := (detLoop_lt 32 le_rfl t).2
  have h4 : (4 : Nat) ^ 32 = 2 ^ 64 := by norm_num
  have hel : entLoop 32 (detLoop 32 t) = t := entLoop_detLoop 32 le_rfl t (by omega)
  have he : entangle (detLoop 32 t).1 (detLoop 32 t).2 = t := by
    rw [hilbert_ent_corr _ _ hx hy]
    show entLoop 32 ((detLoop 32 t).1, (detLoop 32 t).2) = t
    rw [show ((detLoop 32 t).1, (detLoop 32 t).2) = detLoop 32 t from rfl]
    exact hel
  constructor
  · have hrt := hilbert_rt (detLoop 32 t).1 (detLoop 32 t).2 hx hy
    rw [he] at hrt
    rw [hrt]
    rfl
  · exact he

end Hilbert

/-! ### The cached incremental decoder -/

namespace Hilbert

theorem pxor_self (a : Bool × Bool) : pxor a a = (false, false) := by
  rcases a with ⟨a1, a2⟩
  cases a1 <;> cases a2 <;> rfl

theorem bit_detangle_eq (t : Nat) : bit_detangle t = detLoop 32 t := rfl

/-- The flip-then-swap byte transform of `BytewiseCached::detangle`, as the
Klein transform at width 8. -/
theorem byte_transform (q : Bool × Bool) (u v : Nat) (hu : u < 256) (hv : v < 256) :
    ((if q.1 = true then (if q.2 = true then 255 - v else v) else (if q.2 = true then 255 - u else u)),
     (if q.1 = true then (if q.2 = true then 255 - u else u) else (if q.2 = true then 255 - v else v)))
      = app 8 q u v := by
  rcases q with ⟨s, f⟩
  cases s <;> cases f <;> simp [app, Nat.mod_eq_of_lt hu, Nat.mod_eq_of_lt hv]

/-- Inverting one 16-bit machine output chunk recovers the transformed pair. -/
theorem detLoop8_of_absEnt (x y : Nat) (st : Bool × Bool) :
    detLoop 8 ((absEnt 8 x y st).1) = app 8 st x y := by
  rw [← corrEnt 8 (by omega) x y st,
    show app 8 st x y = ((app 8 st x y).1, (app 8 st x y).2) from rfl,
    detLoop_entLoop 8 (by omega) (app 8 st x y).1 (app 8 st x y).2,
    app_mod 8 8 st x y le_rfl]

/-- The byte transform is an involution. -/
theorem app8_twice (st : Bool × Bool) (x y : Nat) :
    app 8 st (app 8 st x y).1 (app 8 st x y).2 = (x % 256, y % 256) := by
  rw [app_comp 8 st st x y, pxor_self, app_id]
  norm_num

/-- The high 48 bits of a tangle determine the decoded high coordinate bytes
and the machine state for the low byte pair; the low 16 bits are the machine
output for the (transformed) low byte pair. -/
theorem hi_decomp (t : Nat) (ht : t < 2 ^ 64) :
    detLoop 24 (t / 65536) = ((detLoop 32 t).1 / 256, (detLoop 32 t).2 / 256)
    ∧ t % 65536
      = (absEnt 8 (detLoop 32 t).1 (detLoop 32 t).2
          (absEnt 24 ((detLoop 32 t).1 / 256) ((detLoop 32 t).2 / 256) (false, false)).2).1 := by
  have hx : (detLoop 32 t).1 < 2 ^ 32 := (detLoop_lt 32 le_rfl t).1
  have hy : (detLoop 32 t).2 < 2 ^ 32 := (detLoop_lt 32 le_rfl t).2
  have h4 : (4 : Nat) ^ 32 = 2 ^ 64 := by norm_num
  have hT : entLoop 32 (detLoop 32 t) = t := entLoop_detLoop 32 le_rfl t (by omega)
  have hE : t = (absEnt 32 (detLoop 32 t).1 (detLoop 32 t).2 (false, false)).1 := by
    rw [← corrEnt 32 le_rfl _ _ (false, false), app_id,
      Nat.mod_eq_of_lt hx, Nat.mod_eq_of_lt hy,
      show ((detLoop 32 t).1, (detLoop 32 t).2) = detLoop 32 t from rfl]
    exact hT.symm
  have hsp := absEnt_split 24 8 (detLoop 32 t).1 (detLoop 32 t).2 (false, false)
  rw [show (24 + 8 : Nat) = 32 from rfl] at hsp
  rw [show (2 : Nat) ^ 8 = 256 from by norm_num] at hsp
  have hfst := congrArg Prod.fst hsp
  dsimp only at hfst
  rw [show (4 : Nat) ^ 8 = 65536 from by norm_num] at hfst
  have hWlt : (absEnt 8 (detLoop 32 t).1 (detLoop 32 t).2
      (absEnt 24 ((detLoop 32 t).1 / 256) ((detLoop 32 t).2 / 256) (false, false)).2).1
        < 65536 := by
    have := absEnt_fst_lt 8 (detLoop 32 t).1 (detLoop 32 t).2
      (absEnt 24 ((detLoop 32 t).1 / 256) ((detLoop 32 t).2 / 256) (false, false)).2
    norm_num at this
    exact this
  have hTA : t = (absEnt 24 ((detLoop 32 t).1 / 256) ((detLoop 32 t).2 / 256) (false, false)).1
        * 65536
      + (absEnt 8 (detLoop 32 t).1 (detLoop 32 t).2
          (absEnt 24 ((detLoop 32 t).1 / 256) ((detLoop 32 t).2 / 256) (false, false)).2).1 := by
    conv_lhs => rw [hE]
    exact hfst
  have ht1 : t / 65536
      = (absEnt 24 ((detLoop 32 t).1 / 256) ((detLoop 32 t).2 / 256) (false, false)).1 := by
    omega
  have ht2 : t % 65536
      = (absEnt 8 (detLoop 32 t).1 (detLoop 32 t).2
          (absEnt 24 ((detLoop 32 t).1 / 256) ((detLoop 32 t).2 / 256) (false, false)).2).1 := by
    omega
  have hVE : (absEnt 24 ((detLoop 32 t).1 / 256) ((detLoop 32 t).2 / 256) (false, false)).1
      = entLoop 24 ((detLoop 32 t).1 / 256, (detLoop 32 t).2 / 256) := by
    rw [← corrEnt 24 (by omega) _ _ (false, false), app_id,
      Nat.mod_eq_of_lt (show (detLoop 32 t).1 / 256 < 2 ^ 24 from by omega),
      Nat.mod_eq_of_lt (show (detLoop 32 t).2 / 256 < 2 ^ 24 from by omega)]
  refine ⟨?_, ht2⟩
  rw [ht1, hVE, detLoop_entLoop 24 (by omega) ((detLoop 32 t).1 / 256) ((detLoop 32 t).2 / 256),
    Nat.mod_eq_of_lt (show (detLoop 32 t).1 / 256 < 2 ^ 24 from by omega),
    Nat.mod_eq_of_lt (show (detLoop 32 t).2 / 256 < 2 ^ 24 from by omega)]

end Hilbert

namespace BytewiseCached

/-- The low bytes of the probe decode are the transformed probe bytes. -/
theorem probe_bytes (hi : Nat) (hhi : hi < 2 ^ 48) :
    ((Hilbert.detangle (hi * 65536 + 255)).1 % 256, (Hilbert.detangle (hi * 65536 + 255)).2 % 256)
      = Hilbert.app 8 (hiState hi) 15 0 := by
  have ht : hi * 65536 + 255 < 2 ^ 64 := by omega
  obtain ⟨h1, h2⟩ := Hilbert.hi_decomp (hi * 65536 + 255) ht
  rw [show (hi * 65536 + 255) / 65536 = hi from by omega] at h1
  rw [show (hi * 65536 + 255) % 65536 = 255 from by omega] at h2
  have hst : hiState hi
      = (Hilbert.absEnt 24 ((Hilbert.detLoop 32 (hi * 65536 + 255)).1 / 256)
          ((Hilbert.detLoop 32 (hi * 65536 + 255)).2 / 256) (false, false)).2 := by
    show (Hilbert.absEnt 24 (Hilbert.detLoop 24 hi).1 (Hilbert.detLoop 24 hi).2
        (false, false)).2 = _
    rw [h1]
  have h255 : Hilbert.detLoop 8 255 = (15, 0) := by decide
  have hA := Hilbert.detLoop8_of_absEnt
    (Hilbert.detLoop 32 (hi * 65536 + 255)).1
    (Hilbert.detLoop 32 (hi * 65536 + 255)).2
    (Hilbert.absEnt 24 ((Hilbert.detLoop 32 (hi * 65536 + 255)).1 / 256)
      ((Hilbert.detLoop 32 (hi * 65536 + 255)).2 / 256) (false, false)).2
  have happ : Hilbert.app 8
      (Hilbert.absEnt 24 ((Hilbert.detLoop 32 (hi * 65536 + 255)).1 / 256)
        ((Hilbert.detLoop 32 (hi * 65536 + 255)).2 / 256) (false, false)).2
      (Hilbert.detLoop 32 (hi * 65536 + 255)).1
      (Hilbert.detLoop 32 (hi * 65536 + 255)).2 = (15, 0) := by
    rw [← hA, ← h2]
    exact h255
  have hby := congrArg (fun p : Nat × Nat =>
    Hilbert.app 8
      (Hilbert.absEnt 24 ((Hilbert.detLoop 32 (hi * 65536 + 255)).1 / 256)
        ((Hilbert.detLoop 32 (hi * 65536 + 255)).2 / 256) (false, false)).2 p.1 p.2) happ
  dsimp only at hby
  rw [Hilbert.app8_twice] at hby
  rw [(Hilbert.hilbert_det_corr _ ht).1, Hilbert.bit_detangle_eq, hst]
  exact hby

/-- The four possible transformed probe byte pairs. -/
theorem app8_probe_vals (st : Bool × Bool) :
    Hilbert.app 8 st 15 0 = (15, 0) ∨ Hilbert.app 8 st 15 0 = (0, 15)
      ∨ Hilbert.app 8 st 15 0 = (240, 255) ∨ Hilbert.app 8 st 15 0 = (255, 240) := by
  rcases st with ⟨s, f⟩
  cases s <;> cases f <;> decide

theorem rebuild_unfold (hi : Nat) :
    rebuild hi
      = (if (Hilbert.detangle (hi * 65536 + 255)).1 % 256 = 15
            ∧ (Hilbert.detangle (hi * 65536 + 255)).2 % 256 = 0 then
           some (false, false)
         else if (Hilbert.detangle (hi * 65536 + 255)).1 % 256 = 0
            ∧ (Hilbert.detangle (hi * 65536 + 255)).2 % 256 = 15 then
           some (true, false)
         else if (Hilbert.detangle (hi * 65536 + 255)).1 % 256 = 240
            ∧ (Hilbert.detangle (hi * 65536 + 255)).2 % 256 = 255 then
           some (false, true)
         else if (Hilbert.detangle (hi * 65536 + 255)).1 % 256 = 255
            ∧ (Hilbert.detangle (hi * 65536 + 255)).2 % 256 = 240 then
           some (true, true)
         else none).map
          (fun r => (r, ((Hilbert.detangle (hi * 65536 + 255)).1 / 256 * 256,
                         (Hilbert.detangle (hi * 65536 + 255)).2 / 256 * 256))) := rfl

/-- Every cache rebuild on a 48-bit prefix succeeds and stores the decode
state and base of that prefix. -/
theorem rebuild_eq (hi : Nat) (hhi : hi < 2 ^ 48) :
    rebuild hi = some (hiState hi, hiBase hi) := by
  have ht : hi * 65536 + 255 < 2 ^ 64 := by omega
  have hpb := probe_bytes hi hhi
  have hb1 := congrArg Prod.fst hpb
  have hb2 := congrArg Prod.snd hpb
  dsimp only at hb1 hb2
  have hout : ((Hilbert.detangle (hi * 65536 + 255)).1 / 256 * 256,
      (Hilbert.detangle (hi * 65536 + 255)).2 / 256 * 256) = hiBase hi := by
    obtain ⟨h1, _⟩ := Hilbert.hi_decomp (hi * 65536 + 255) ht
    rw [show (hi * 65536 + 255) / 65536 = hi from by omega] at h1
    rw [(Hilbert.hilbert_det_corr _ ht).1, Hilbert.bit_detangle_eq]
    show _ = ((Hilbert.detLoop 24 hi).1 * 256, (Hilbert.detLoop 24 hi).2 * 256)
    rw [h1]
  rw [rebuild_unfold]
  rcases hc : hiState hi with ⟨s, f⟩
  rw [hc] at hb1 hb2
  cases s <;> cases f
  · have e1 : (Hilbert.app 8 (false, false) 15 0).1 = 15 := by decide
    have e2 : (Hilbert.app 8 (false, false) 15 0).2 = 0 := by decide
    rw [e1] at hb1
    rw [e2] at hb2
    rw [if_pos ⟨hb1, hb2⟩, Option.map_some']
    rw [hout]
  · have e1 : (Hilbert.app 8 (false, true) 15 0).1 = 240 := by decide
    have e2 : (Hilbert.app 8 (false, true) 15 0).2 = 255 := by decide
    rw [e1] at hb1
    rw [e2] at hb2
    rw [if_neg (by omega), if_neg (by omega), if_pos ⟨hb1, hb2⟩, Option.map_some']
    rw [hout]
  · have e1 : (Hilbert.app 8 (true, false) 15 0).1 = 0 := by decide
    have e2 : (Hilbert.app 8 (true, false) 15 0).2 = 15 := by decide
    rw [e1] at hb1
    rw [e2] at hb2
    rw [if_neg (by omega), if_pos ⟨hb1, hb2⟩, Option.map_some']
    rw [hout]
  · have e1 : (Hilbert.app 8 (true, true) 15 0).1 = 255 := by decide
    have e2 : (Hilbert.app 8 (true, true) 15 0).2 = 240 := by decide
    rw [e1] at hb1
    rw [e2] at hb2
    rw [if_neg (by omega), if_neg (by omega), if_neg (by omega), if_pos ⟨hb1, hb2⟩,
      Option.map_some']
    rw [hout]

theorem detangle_unfold (c : BytewiseCached) (t : Nat) :
    detangle c t
      = (if c.prev_hi ≠ t / 65536 then
          match rebuild (t / 65536) with
          | none => none
          | some rs => some ⟨t / 65536, rs.2, rs.1⟩
         else some c).map (fun s =>
          ((s.prev_out.1
              + (if s.prev_rot.1 then
                  (if s.prev_rot.2 then 255 - (Hilbert.detangleTable (t % 65536)).2
                   else (Hilbert.detangleTable (t % 65536)).2)
                 else
                  (if s.prev_rot.2 then 255 - (Hilbert.detangleTable (t % 65536)).1
                   else (Hilbert.detangleTable (t % 65536)).1)),
            s.prev_out.2
              + (if s.prev_rot.1 then
                  (if s.prev_rot.2 then 255 - (Hilbert.detangleTable (t % 65536)).1
                   else (Hilbert.detangleTable (t % 65536)).1)
                 else
                  (if s.prev_rot.2 then 255 - (Hilbert.detangleTable (t % 65536)).2
                   else (Hilbert.detangleTable (t % 65536)).2))), s)) := rfl

/-- The cached per-call computation decodes correctly from a valid state. -/
theorem decode_core (t : Nat) (ht : t < 2 ^ 64) :
    ((hiBase (t / 65536)).1
        + (if (hiState (t / 65536)).1 = true then
            (if (hiState (t / 65536)).2 = true then 255 - (Hilbert.detangleTable (t % 65536)).2
             else (Hilbert.detangleTable (t % 65536)).2)
           else
            (if (hiState (t / 65536)).2 = true then 255 - (Hilbert.detangleTable (t % 65536)).1
             else (Hilbert.detangleTable (t % 65536)).1)),
     (hiBase (t / 65536)).2
        + (if (hiState (t / 65536)).1 = true then
            (if (hiState (t / 65536)).2 = true then 255 - (Hilbert.detangleTable (t % 65536)).1
             else (Hilbert.detangleTable (t % 65536)).1)
           else
            (if (hiState (t / 65536)).2 = true then 255 - (Hilbert.detangleTable (t % 65536)).2
             else (Hilbert.detangleTable (t % 65536)).2)))
      = Hilbert.detangle t := by
  obtain ⟨h1, h2⟩ := Hilbert.hi_decomp t ht
  have hst : hiState (t / 65536)
      = (Hilbert.absEnt 24 ((Hilbert.detLoop 32 t).1 / 256) ((Hilbert.detLoop 32 t).2 / 256)
          (false, false)).2 := by
    show (Hilbert.absEnt 24 (Hilbert.detLoop 24 (t / 65536)).1 (Hilbert.detLoop 24 (t / 65536)).2
        (false, false)).2 = _
    rw [h1]
  have hbase : hiBase (t / 65536)
      = ((Hilbert.detLoop 32 t).1 / 256 * 256, (Hilbert.detLoop 32 t).2 / 256 * 256) := by
    show ((Hilbert.detLoop 24 (t / 65536)).1 * 256, (Hilbert.detLoop 24 (t / 65536)).2 * 256) = _
    rw [h1]
  have htab : Hilbert.detangleTable (t % 65536)
      = Hilbert.app 8
          (Hilbert.absEnt 24 ((Hilbert.detLoop 32 t).1 / 256) ((Hilbert.detLoop 32 t).2 / 256)
            (false, false)).2
          (Hilbert.detLoop 32 t).1 (Hilbert.detLoop 32 t).2 := by
    rw [h2]
    exact Hilbert.detTab_of_absEnt _ _ _
  rw [hst, hbase, htab]
  have hu : (Hilbert.app 8
      (Hilbert.absEnt 24 ((Hilbert.detLoop 32 t).1 / 256) ((Hilbert.detLoop 32 t).2 / 256)
        (false, false)).2
      (Hilbert.detLoop 32 t).1 (Hilbert.detLoop 32 t).2).1 < 256 := by
    have := (Hilbert.app_le 8
      (Hilbert.absEnt 24 ((Hilbert.detLoop 32 t).1 / 256) ((Hilbert.detLoop 32 t).2 / 256)
        (false, false)).2
      (Hilbert.detLoop 32 t).1 (Hilbert.detLoop 32 t).2).1
    omega
  have hv : (Hilbert.app 8
      (Hilbert.absEnt 24 ((Hilbert.detLoop 32 t).1 / 256) ((Hilbert.detLoop 32 t).2 / 256)
        (false, false)).2
      (Hilbert.detLoop 32 t).1 (Hilbert.detLoop 32 t).2).2 < 256 := by
    have := (Hilbert.app_le 8
      (Hilbert.absEnt 24 ((Hilbert.detLoop 32 t).1 / 256) ((Hilbert.detLoop 32 t).2 / 256)
        (false, false)).2
      (Hilbert.detLoop 32 t).1 (Hilbert.detLoop 32 t).2).2
    omega
  have hbt := Hilbert.byte_transform
    (Hilbert.absEnt 24 ((Hilbert.detLoop 32 t).1 / 256) ((Hilbert.detLoop 32 t).2 / 256)
      (false, false)).2 _ _ hu hv
  have hbt1 := congrArg Prod.fst hbt
  have hbt2 := congrArg Prod.snd hbt
  dsimp only at hbt1 hbt2
  rw [hbt1, hbt2, Hilbert.app_comp 8 _ _ _ _, Hilbert.pxor_self, Hilbert.app_id,
    show (2 : Nat) ^ 8 = 256 from by norm_num]
  rw [(Hilbert.hilbert_det_corr t ht).1, Hilbert.bit_detangle_eq]
  apply Prod.ext <;> dsimp only <;> omega

/-- A call whose high 48 bits differ from the cache succeeds via a rebuild
and returns the stateless decode. -/
theorem detangle_miss (c : BytewiseCached) (t : Nat) (ht : t < 2 ^ 64)
    (hne : c.prev_hi ≠ t / 65536) :
    detangle c t
      = some (Hilbert.detangle t, ⟨t / 65536, hiBase (t / 65536), hiState (t / 65536)⟩) := by
  rw [detangle_unfold, if_pos hne, rebuild_eq (t / 65536) (by omega)]
  dsimp only
  rw [Option.map_some']
  rw [decode_core t ht]

/-- A call whose high 48 bits match a valid cache reuses the cache and returns
the stateless decode. -/
theorem detangle_hit (c : BytewiseCached) (t : Nat) (ht : t < 2 ^ 64)
    (hhi : c.prev_hi = t / 65536)
    (h1 : c.prev_rot = hiState c.prev_hi) (h2 : c.prev_out = hiBase c.prev_hi) :
    detangle c t = some (Hilbert.detangle t, c) := by
  rw [hhi] at h1 h2
  rw [detangle_unfold, if_neg (by omega), Option.map_some']
  rw [h1, h2, decode_core t ht]

theorem run_nilEq (c : BytewiseCached) : run c [] = some [] := rfl

theorem run_consEq (c : BytewiseCached) (t : Nat) (ts : List Nat) :
    run c (t :: ts)
      = match detangle c t with
        | none => none
        | some pr => (run pr.2 ts).map (fun l => pr.1 :: l) := rfl

/-- Running any sequence of u64 tangles through a valid cache reproduces the
stateless decoder on every element. -/
theorem run_corr (ts : List Nat) : ∀ c : BytewiseCached,
    c.prev_rot = hiState c.prev_hi → c.prev_out = hiBase c.prev_hi →
    (∀ t ∈ ts, t < 2 ^ 64) →
    run c ts = some (ts.map Hilbert.detangle) := by
  induction ts with
  | nil => intro c _ _ _; rfl
  | cons t ts ih =>
    intro c h1 h2 hb
    have ht : t < 2 ^ 64 := hb t (by simp)
    have hb2 : ∀ u ∈ ts, u < 2 ^ 64 := fun u hu => hb u (by simp [hu])
    rw [run_consEq]
    by_cases hcase : c.prev_hi = t / 65536
    · rw [detangle_hit c t ht hcase h1 h2]
      dsimp only
      rw [ih c h1 h2 hb2]
      rfl
    · rw [detangle_miss c t ht hcase]
      dsimp only
      rw [ih ⟨t / 65536, hiBase (t / 65536), hiState (t / 65536)⟩ (by dsimp only) (by dsimp only)
        hb2]
      rfl

/-- `BytewiseCached::new` succeeds and establishes a valid cache for prefix 0. -/
theorem new_eq : new = some ⟨0, hiBase 0, hiState 0⟩ := by
  show (detangle ⟨18446744073709551615, (0, 0), (false, false)⟩ 0).map (fun r => r.2) = _
  rw [detangle_miss ⟨18446744073709551615, (0, 0), (false, false)⟩ 0 (by norm_num) (by decide)]
  rw [show (0 : Nat) / 65536 = 0 from by norm_num]
  rfl

end BytewiseCached

/-! ### Claims C1, C3, C4, C10 -/

/-- C1: for every pair of u32 coordinates and every u64 tangle, both the
ZOrder tangler and the Hilbert tangler satisfy
`detangle (entangle (x, y)) = (x, y)` and `entangle (detangle t) = t`, so each
tangler's maps are mutually inverse bijections between `(u32, u32)` and `u64`. -/
theorem c1_tanglers_mutually_inverse (x y t : Nat)
    (hx : x < 2 ^ 32) (hy : y < 2 ^ 32) (ht : t < 2 ^ 64) :
    (ZOrder.detangle (ZOrder.entangle x y) = (x, y)
      ∧ ZOrder.entangle (ZOrder.detangle t).1 (ZOrder.detangle t).2 = t)
    ∧ (Hilbert.detangle (Hilbert.entangle x y) = (x, y)
      ∧ Hilbert.entangle (Hilbert.detangle t).1 (Hilbert.detangle t).2 = t) := by
  refine ⟨⟨ZOrder.round_trip_fwd x y hx hy, ZOrder.round_trip_bwd t ht⟩,
    Hilbert.hilbert_rt x y hx hy, ?_⟩
  rw [(Hilbert.hilbert_det_corr t ht).1]
  exact (Hilbert.hilbert_det_corr t ht).2

/-- Witness for C1 at `x = 3`, `y = 5`, `t = 9`. -/
theorem c1_tanglers_mutually_inverse_witness :
    3 < 2 ^ 32 ∧ 5 < 2 ^ 32 ∧ 9 < 2 ^ 64
      ∧ ((ZOrder.detangle (ZOrder.entangle 3 5) = (3, 5)
            ∧ ZOrder.entangle (ZOrder.detangle 9).1 (ZOrder.detangle 9).2 = 9)
          ∧ (Hilbert.detangle (Hilbert.entangle 3 5) = (3, 5)
            ∧ Hilbert.entangle (Hilbert.detangle 9).1 (Hilbert.detangle 9).2 = 9)) :=
  ⟨by norm_num, by norm_num, by norm_num,
    c1_tanglers_mutually_inverse 3 5 9 (by norm_num) (by norm_num) (by norm_num)⟩

/-- C3: the byte-at-a-time Hilbert fast path computes exactly the bit-at-a-time
reference algorithm: `entangle` agrees on every u32 pair and `detangle` on
every u64 tangle. -/
theorem c3_fast_path_matches_reference (x y t : Nat)
    (hx : x < 2 ^ 32) (hy : y < 2 ^ 32) (ht : t < 2 ^ 64) :
    Hilbert.entangle x y = Hilbert.bit_entangle (x, y)
      ∧ Hilbert.detangle t = Hilbert.bit_detangle t :=
  ⟨Hilbert.hilbert_ent_corr x y hx hy, (Hilbert.hilbert_det_corr t ht).1⟩

/-- Witness for C3 at `x = 2`, `y = 7`, `t = 11`. -/
theorem c3_fast_path_matches_reference_witness :
    2 < 2 ^ 32 ∧ 7 < 2 ^ 32 ∧ 11 < 2 ^ 64
      ∧ (Hilbert.entangle 2 7 = Hilbert.bit_entangle (2, 7)
          ∧ Hilbert.detangle 11 = Hilbert.bit_detangle 11) :=
  ⟨by norm_num, by norm_num, by norm_num,
    c3_fast_path_matches_reference 2 7 11 (by norm_num) (by norm_num) (by norm_num)⟩

/-- C4: for every finite sequence of u64 tangles, fed in any order to the
cache built by `BytewiseCached::new`, every call returns exactly the pair the
stateless `Hilbert::detangle` returns (and no call reaches the panic arm). -/
theorem c4_cached_decoder_matches_stateless (ts : List Nat) (hts : ∀ t ∈ ts, t < 2 ^ 64) :
    ∃ c0 : BytewiseCached, BytewiseCached.new = some c0
      ∧ BytewiseCached.run c0 ts = some (ts.map Hilbert.detangle) := by
  refine ⟨⟨0, BytewiseCached.hiBase 0, BytewiseCached.hiState 0⟩, BytewiseCached.new_eq, ?_⟩
  exact BytewiseCached.run_corr ts _ (by dsimp only) (by dsimp only) hts

/-- Witness for C4 on the sequence `[3]`. -/
theorem c4_cached_decoder_matches_stateless_witness :
    (∀ t ∈ [3], t < 2 ^ 64)
      ∧ ∃ c0 : BytewiseCached, BytewiseCached.new = some c0
          ∧ BytewiseCached.run c0 [3] = some ([3].map Hilbert.detangle) :=
  ⟨by decide, c4_cached_decoder_matches_stateless [3] (by decide)⟩

/-- C10: for every 48-bit high prefix, decoding the probe `(hi << 16) + 255`
with the stateless Hilbert detangle yields low bytes in one of the four
recognized patterns, and the cache rebuild never reaches the panic arm. -/
theorem c10_rebuild_panic_unreachable (hi : Nat) (hhi : hi < 2 ^ 48) :
    (((Hilbert.detangle (hi * 65536 + 255)).1 % 256,
        (Hilbert.detangle (hi * 65536 + 255)).2 % 256) = (15, 0)
      ∨ ((Hilbert.detangle (hi * 65536 + 255)).1 % 256,
          (Hilbert.detangle (hi * 65536 + 255)).2 % 256) = (0, 15)
      ∨ ((Hilbert.detangle (hi * 65536 + 255)).1 % 256,
          (Hilbert.detangle (hi * 65536 + 255)).2 % 256) = (240, 255)
      ∨ ((Hilbert.detangle (hi * 65536 + 255)).1 % 256,
          (Hilbert.detangle (hi * 65536 + 255)).2 % 256) = (255, 240))
    ∧ BytewiseCached.rebuild hi ≠ none := by
  constructor
  · rw [BytewiseCached.probe_bytes hi hhi]
    exact BytewiseCached.app8_probe_vals (BytewiseCached.hiState hi)
  · rw [BytewiseCached.rebuild_eq hi hhi]
    exact Option.some_ne_none _

/-- Witness for C10 at `hi = 0`. -/
theorem c10_rebuild_panic_unreachable_witness :
    0 < 2 ^ 48
      ∧ ((((Hilbert.detangle (0 * 65536 + 255)).1 % 256,
            (Hilbert.detangle (0 * 65536 + 255)).2 % 256) = (15, 0)
          ∨ ((Hilbert.detangle (0 * 65536 + 255)).1 % 256,
              (Hilbert.detangle (0 * 65536 + 255)).2 % 256) = (0, 15)
          ∨ ((Hilbert.detangle (0 * 65536 + 255)).1 % 256,
              (Hilbert.detangle (0 * 65536 + 255)).2 % 256) = (240, 255)
          ∨ ((Hilbert.detangle (0 * 65536 + 255)).1 % 256,
              (Hilbert.detangle (0 * 65536 + 255)).2 % 256) = (255, 240))
        ∧ BytewiseCached.rebuild 0 ≠ none) :=
  ⟨by norm_num, c10_rebuild_panic_unreachable 0 (by norm_num)⟩

end GraphLayout
